import Mathlib

/-!
Verification of the pulsechain-analytics core algorithms.

The repository's core (chart-price-ratio) is a Node.js program; its
algorithmic heart is embedded here shallowly:

* `getBestPoolWithHistory` — pool selection under the liquidity/history
  trade-off (src/chart-price-ratio/pool-selector.js, lines 66-92);
* `generateNiceTicks` and its stages — the y-axis tick generator
  (pulse-token-ratio.js, lines 251-288);
* `alignRatios` / `computeRatioSeries` — positional series alignment
  (pulse-token-ratio.js, lines 350-370);
* `resampleToWeekly` — bucket resampling (lines 228-242);
* `formatYRaw` with exact decimal string rendering (lines 381-394);
* `labelIndices` / `buildXAxis` — x-axis label layout (lines 417-449).

JavaScript numbers are embedded as exact rationals (`ℚ`); timestamps as
`ℤ` (milliseconds). Floating-point rounding is not modelled except where
the source itself rounds decimally (`toFixed`), which is modelled exactly.
-/

namespace PulseAnalytics

/-- A price sample: `{timestamp, close}` as produced by `getClosesGecko`
(timestamp in ms, close price). -/
structure PriceSample where
  timestamp : ℤ
  close : ℚ
deriving DecidableEq, Repr

/-- One point of the ratio series built in `main` (lines 355-365):
seriesA's timestamp is canonical, ratio = closeA / closeB. -/
structure RatioPoint where
  timestamp : ℤ
  ratio : ℚ
deriving DecidableEq, Repr

/-- The per-index ratio loop of `main` (pulse-token-ratio.js lines 350-365):
`for (let i = 0; i < minLen; i++)` over `minLen = min(dataA.length,
dataB.length)`; an index contributes one point iff `pB > 0 && pA > 0`,
with `dataA[i].timestamp` as the point's timestamp. Walking both lists in
step and stopping at the shorter one is that loop. -/
def alignRatios : List PriceSample → List PriceSample → List RatioPoint
  | a :: as, b :: bs =>
    if 0 < b.close ∧ 0 < a.close then
      { timestamp := a.timestamp, ratio := a.close / b.close } :: alignRatios as bs
    else
      alignRatios as bs
  | _, _ => []

/-- The alignment stage's failure (spec taxonomy name for the code path
`if (ratios.length === 0) { console.error(...); return; }`, lines 367-370). -/
inductive AlignError where
  | EmptyResult
deriving DecidableEq, Repr

/-- The alignment stage of `main` as one fallible step (lines 350-370): build
the ratio series, and abort — the source prints an error and returns without
producing any output — when no index yielded a point, instead of carrying on
with a zero-length series. -/
def computeRatioSeries (dataA dataB : List PriceSample) : Except AlignError (List RatioPoint) :=
  let pts := alignRatios dataA dataB
  if pts.isEmpty then .error .EmptyResult else .ok pts

/-- `resampleToWeekly`'s loop body over `dailyData.slice(1)` (lines 233-240),
with the running `weekStart`/`weekClose` as arguments and the trailing
`weekly.push({timestamp: weekStart, close: weekClose})` (line 240) as the
base case. `T` is the precomputed `weeklyResampleDays * 24 * 60 * 60 * 1000`. -/
def resampleAux (T weekStart : ℤ) (weekClose : ℚ) : List PriceSample → List PriceSample
  | [] => [{ timestamp := weekStart, close := weekClose }]
  | d :: ds =>
    if d.timestamp - weekStart ≥ T then
      { timestamp := weekStart, close := weekClose } :: resampleAux T d.timestamp d.close ds
    else
      resampleAux T weekStart d.close ds

/-- `resampleToWeekly(dailyData)` (pulse-token-ratio.js lines 228-242). The
source reads the bucket width from the module-level `weeklyResampleDays`;
it is passed explicitly here. Note the source updates `weekClose = d.close`
at the end of every iteration, so on a boundary crossing the pushed close is
the one from *before* the crossing sample, and the crossing sample's close
seeds the new bucket — `resampleAux` passes `d.close` accordingly. -/
def resampleToWeekly (weeklyResampleDays : ℕ) : List PriceSample → List PriceSample
  | [] => []
  | d :: ds => resampleAux ((weeklyResampleDays : ℤ) * (24 * 60 * 60 * 1000)) d.timestamp d.close ds

/-- One entry of `poolHistories` in `getBestPoolWithHistory`
(pool-selector.js lines 50-55). -/
structure PoolEntry where
  address : String
  name : String
  liquidity : ℚ
  historyDays : ℕ
deriving DecidableEq, Repr

/-- Liquidity-descending order, the comparator `(a, b) => b.liquidity - a.liquidity`
used at pool-selector.js lines 40 and 84. -/
def liqDesc (a b : PoolEntry) : Prop := b.liquidity ≤ a.liquidity

instance : DecidableRel liqDesc := fun a b =>
  inferInstanceAs (Decidable (b.liquidity ≤ a.liquidity))

instance : IsTotal PoolEntry liqDesc := ⟨fun a b => le_total b.liquidity a.liquidity⟩

instance : IsTrans PoolEntry liqDesc := ⟨fun _ _ _ h h2 => le_trans h2 h⟩

/-- The selection logic of `getBestPoolWithHistory` (pool-selector.js lines
66-92), starting from the already-built `poolHistories` list (sorted by
liquidity descending by the caller, line 40). The source throws
`'No pools with historical data found'` on an empty list (line 63): `none`
here. `Array.prototype.sort` is stable (ES2019), embedded as insertion sort. -/
def getBestPoolWithHistory (poolHistories : List PoolEntry) : Option PoolEntry :=
  match poolHistories with
  | [] => none
  | topPool :: _ =>
    let maxHistory := (poolHistories.map PoolEntry.historyDays).foldr Max.max 0
    let topLiquidity := topPool.liquidity
    if (topPool.historyDays : ℚ) ≥ (1/2) * (maxHistory : ℚ) then some topPool
    else
      let thresholdLiquidity := (1/10) * topLiquidity
      let goodAlternatives := poolHistories.filter
        (fun p => p.historyDays = maxHistory ∧ p.liquidity ≥ thresholdLiquidity)
      match (goodAlternatives.insertionSort liqDesc).head? with
      | some selected => some selected
      | none => some topPool

/-! ### The tick generator (`generateNiceTicks`, pulse-token-ratio.js lines 251-288)

The stages of the function body are split into named definitions so theorems
can speak about the internal `step`; chained together they are the source
function line by line. All arithmetic is exact rational arithmetic;
`Math.floor(Math.log10 x)` for `x > 0` is exactly `Int.log 10 x`. -/

/-- Lines 261-263: the 1-2-5 ladder.
`let step = Math.pow(10, Math.floor(Math.log10(roughStep)));
if (roughStep / step > 5) step *= 5; else if (roughStep / step > 2) step *= 2;` -/
def ladderStep (roughStep : ℚ) : ℚ :=
  let step0 := (10 : ℚ) ^ Int.log 10 roughStep
  if roughStep / step0 > 5 then 5 * step0
  else if roughStep / step0 > 2 then 2 * step0
  else step0

/-- Lines 254-265: `roughStep = range / (tickCount - 1)`, the 1-2-5 ladder,
then `step = Math.max(step, range / 1000)` (line 265). The source's `minStep`
and `stepMagnitude` (lines 258-259) are computed but never read afterwards
and are not reproduced. -/
def tickStep (min max : ℚ) (tickCount : ℕ) : ℚ :=
  Max.max (ladderStep ((max - min) / ((tickCount : ℚ) - 1))) ((max - min) / 1000)

/-- Lines 267-268: `start = Math.floor(min / step) * step; if (start < min)
start += step`. -/
def tickStart (min max : ℚ) (tickCount : ℕ) : ℚ :=
  let step := tickStep min max tickCount
  let start := ⌊min / step⌋ * step
  if start < min then start + step else start

/-- Trip count of the emission loop `for (val = start; val <= max + step/2;
val += step)` (line 271): the values are `start + k*step` (exact arithmetic
makes the running `val += step` equal to `start + k*step`), and
`start + k*step ≤ max + step/2` iff `k ≤ ⌊(max + step/2 - start)/step⌋`. -/
def rawTickCount (min max : ℚ) (tickCount : ℕ) : ℕ :=
  let step := tickStep min max tickCount
  (⌊(max + step / 2 - tickStart min max tickCount) / step⌋ + 1).toNat

/-- Lines 270-275: the emission loop with its filter
`if (val >= min - step/10) ticks.push(val)`. -/
def loopTicks (min max : ℚ) (tickCount : ℕ) : List ℚ :=
  let step := tickStep min max tickCount
  let start := tickStart min max tickCount
  ((List.range (rawTickCount min max tickCount)).map
      (fun (k : ℕ) => start + (k : ℚ) * step)).filter
    (fun val => val ≥ min - step / 10)

/-- The last value the emission loop pushes: `start + (K-1)*step` for trip
count `K` (a name for a derived quantity of lines 270-275, used to state
facts about the loop's final iteration). -/
def tickLast (min max : ℚ) (tickCount : ℕ) : ℚ :=
  tickStart min max tickCount +
    ((rawTickCount min max tickCount - 1 : ℕ) : ℚ) * tickStep min max tickCount

/-- Lines 277-282: force-include `min` when `|ticks[0] - min| > step/10`
(unshift), then force-include `max` when the (possibly updated) array's last
element differs from `max` by more than `step/10` (push). An empty `ticks`
leaves the array untouched: in the source both guards compare `NaN`
(`Math.abs(undefined - min)`), which is never `>`. -/
def forcedTicks (min max : ℚ) (tickCount : ℕ) : List ℚ :=
  let step := tickStep min max tickCount
  let ticks := loopTicks min max tickCount
  let ticks1 :=
    (ticks.head?).elim ticks
      (fun t0 => if |t0 - min| > step / 10 then min :: ticks else ticks)
  (ticks1.getLast?).elim ticks1
    (fun tl => if |tl - max| > step / 10 then ticks1 ++ [max] else ticks1)

/-- Line 284's `Number(v.toFixed(15))`: round to 15 decimal places.
`toFixed` picks the closer 15-decimal number, the larger one on ties —
round half toward `+∞`, i.e. `⌊x·10¹⁵ + 1/2⌋ / 10¹⁵`. -/
def round15 (q : ℚ) : ℚ := (⌊q * 10 ^ 15 + 1 / 2⌋ : ℤ) / 10 ^ 15

/-- `generateNiceTicks(min, max, tickCount)` (lines 251-288). Line 252:
`if (min === max) return [min]`. For `min > max` the source's `roughStep`
is negative, `Math.log10` yields `NaN`, the `NaN` step empties the loop and
disables both force-include guards, and the function returns `[]`; the
rational embedding cannot carry `NaN`, so that case is modelled by its net
effect. Then line 284-287: round to 15 decimals, deduplicate (`Set`,
keeping one occurrence per value) and sort ascending (`Array.sort` on a
duplicate-free array — insertion sort). -/
def generateNiceTicks (min max : ℚ) (tickCount : ℕ) : List ℚ :=
  if min = max then [min]
  else if max < min then []
  else List.insertionSort (· ≤ ·) ((forcedTicks min max tickCount).map round15).dedup

/-! ### The y-axis label formatter (`formatYRaw`, pulse-token-ratio.js lines 381-394)

JavaScript number-to-string conversion is modelled at the character level:
`toFixed(p)` renders the nearest multiple of `10^-p` (larger on ties) with
exactly `p` fraction digits, `toExponential(d)` the nearest `d+1`-digit
mantissa times a power of ten. -/

/-- Decimal digits of a natural number, most significant first. -/
def natToChars (n : ℕ) : List Char :=
  if _h : n < 10 then [Nat.digitChar n]
  else natToChars (n / 10) ++ [Nat.digitChar (n % 10)]
decreasing_by exact Nat.div_lt_self (by omega) (by norm_num)

/-- Left-pad with the digit 0 to width `p` (fraction part of `toFixed`). -/
def padLeftZeros (p : ℕ) (s : List Char) : List Char :=
  List.replicate (p - s.length) '0' ++ s

/-- `value.toFixed(p)`: round to the closest multiple of `10^-p` (ECMA-262
picks the larger candidate on a tie) and render with exactly `p` fraction
digits. -/
def toFixedQ (p : ℕ) (value : ℚ) : List Char :=
  let scaled : ℤ := ⌊value * 10 ^ p + 1 / 2⌋
  let sign : List Char := if scaled < 0 then ['-'] else []
  let n : ℕ := scaled.natAbs
  if p = 0 then sign ++ natToChars (n / 10 ^ p)
  else sign ++ natToChars (n / 10 ^ p) ++ '.' :: padLeftZeros p (natToChars (n % 10 ^ p))

/-- `value.toExponential(d)`: a `d+1`-digit mantissa with a decimal point
after the first digit, then `e`, the exponent's sign and its digits. When
rounding carries the mantissa to `10^(d+1)` the exponent is bumped. -/
def toExponentialQ (d : ℕ) (value : ℚ) : List Char :=
  if value = 0 then '0' :: '.' :: (List.replicate d '0' ++ ['e', '+', '0'])
  else
    let sign : List Char := if value < 0 then ['-'] else []
    let e : ℤ := Int.log 10 |value|
    let m0 : ℤ := ⌊|value| / (10 : ℚ) ^ e * 10 ^ d + 1 / 2⌋
    let m : ℤ := if m0 = 10 ^ (d + 1) then 10 ^ d else m0
    let e2 : ℤ := if m0 = 10 ^ (d + 1) then e + 1 else e
    let mantissa :=
      match natToChars m.toNat with
      | [] => []
      | c :: cs => if d = 0 then [c] else c :: '.' :: cs
    sign ++ mantissa ++ ['e'] ++ (if e2 < 0 then ['-'] else ['+']) ++ natToChars e2.natAbs

/-- Line 391: `formatted.replace(/0+$/, '')` — drop the maximal run of
trailing zero characters. -/
def stripTrailingZeros (s : List Char) : List Char :=
  (s.reverse.dropWhile (fun c => c = '0')).reverse

/-- Lines 390-393: strip trailing zeros, then a bare trailing decimal point
(`if (formatted.endsWith('.')) formatted = formatted.slice(0, -1)`), and
fall back to `"0"` for an empty result (`return formatted || '0'`). -/
def stripLabel (s : List Char) : List Char :=
  let s1 := stripTrailingZeros s
  let s2 := if s1.getLast? = some '.' then s1.dropLast else s1
  if s2 = [] then ['0'] else s2

/-- `formatYRaw` (lines 381-394): precision 6, raised to 8/10/12 as the
plotted range shrinks below 0.01/0.001/0.0001; scientific notation with 4
fraction digits below 0.00001; fixed-point labels get their trailing zeros
and bare trailing point stripped. The successive `precision` reassignments
of the source are successive shadowing bindings here. -/
def formatYRaw (range : ℚ) (value : ℚ) : List Char :=
  let precision : ℕ := 6
  let precision := if range < 0.01 then 8 else precision
  let precision := if range < 0.001 then 10 else precision
  let precision := if range < 0.0001 then 12 else precision
  if range < 0.00001 then toExponentialQ 4 value
  else stripLabel (toFixedQ precision value)

/-! ### The x-axis label layout (pulse-token-ratio.js lines 417-449) -/

/-- Line 420: `Math.min(10, Math.max(4, Math.ceil(ratios.length / 30)))`;
for a natural `n`, `Math.ceil(n / 30) = (n + 29) / 30` in ℕ-division. -/
def labelCount (n : ℕ) : ℕ := Min.min 10 (Max.max 4 ((n + 29) / 30))

/-- Line 421: `Math.floor((ratios.length - 1) / (labelCount - 1))`. -/
def labelStride (n : ℕ) : ℕ := (n - 1) / (labelCount n - 1)

/-- Lines 423-427: indices `i * step` for `i = 0 .. labelCount - 2`, then the
last index `ratios.length - 1` pushed explicitly. -/
def labelIndices (n : ℕ) : List ℕ :=
  ((List.range (labelCount n - 1)).map (fun i => i * labelStride n)) ++ [n - 1]

/-- Lines 439-447: `padding = idx - prevEnd; xAxis += ' '.repeat(padding) +
text; prevEnd = idx + text.length`. `' '.repeat` of a negative count throws
a `RangeError` in JavaScript: `none` here. -/
def buildXAxisAux (prevEnd : ℕ) : List (ℕ × List Char) → Option (List Char)
  | [] => some []
  | (idx, text) :: rest =>
    if prevEnd ≤ idx then
      (buildXAxisAux (idx + text.length) rest).map
        (fun s => List.replicate (idx - prevEnd) ' ' ++ text ++ s)
    else none

/-- Line 449: `console.log(' '.repeat(yTickWidth) + xAxis)` — the printed
x-axis line, gutter first. -/
def buildXAxis (yTickWidth : ℕ) (labels : List (ℕ × List Char)) : Option (List Char) :=
  (buildXAxisAux 0 labels).map (fun s => List.replicate yTickWidth ' ' ++ s)

/-- The claim's proviso, decidably: each label's start index is at least the
end column of the preceding label. -/
def noOverlap (prevEnd : ℕ) : List (ℕ × List Char) → Bool
  | [] => true
  | (idx, text) :: rest => decide (prevEnd ≤ idx) && noOverlap (idx + text.length) rest

/-- Rounding to 15 *significant* decimal digits, built from the claim's own
words (spec §3, Tick invariant), not from the source — the source rounds to
15 decimal *places* (`toFixed(15)`, see `round15`). Round half toward +∞;
the tie direction is immaterial where this is used. -/
def roundSig15 (q : ℚ) : ℚ :=
  if q = 0 then 0
  else (⌊q / (10 : ℚ) ^ (Int.log 10 |q| - 14) + 1 / 2⌋ : ℤ) * (10 : ℚ) ^ (Int.log 10 |q| - 14)

/-! ### Helper lemmas shared across claims -/

/-- Last close of a bucket-accumulator list: `(pre.getLast?.map close).getD wc`
is the close of the last sample of `pre`, falling back to the running close. -/
theorem getLast_close_cons (p : PriceSample) (pre : List PriceSample) (wc : ℚ) :
    (((p :: pre).getLast?).map PriceSample.close).getD wc =
      ((pre.getLast?).map PriceSample.close).getD p.close := by
  cases pre with
  | nil => simp
  | cons q qs =>
    rw [List.getLast?_cons_cons]
    have h : (q :: qs).getLast?.isSome := by simp
    obtain ⟨z, hz⟩ := Option.isSome_iff_exists.mp h
    rw [hz]
    simp

/-- Last close of a non-empty list, in the fallback form used throughout. -/
theorem getLast_close_cons_some (d : PriceSample) (ds : List PriceSample) :
    ((d :: ds).getLast?).map PriceSample.close =
      some (((ds.getLast?).map PriceSample.close).getD d.close) := by
  cases ds with
  | nil => simp
  | cons q qs =>
    rw [List.getLast?_cons_cons]
    have h : (q :: qs).getLast?.isSome := by simp
    obtain ⟨z, hz⟩ := Option.isSome_iff_exists.mp h
    rw [hz]
    simp

/-- The resampling accumulator never returns an empty list: the trailing
bucket is pushed unconditionally (pulse-token-ratio.js line 240). -/
theorem resampleAux_ne_nil (T ws : ℤ) (wc : ℚ) (ds : List PriceSample) :
    resampleAux T ws wc ds ≠ [] := by
  induction ds generalizing ws wc with
  | nil => simp [resampleAux]
  | cons d ds ih =>
    rw [resampleAux]
    split
    · simp
    · exact ih _ _

/-- The close of the accumulator's last emitted bucket is the close of the
last remaining sample (or the running close when none remain). -/
theorem resampleAux_getLast_close (T ws : ℤ) (wc : ℚ) (ds : List PriceSample) :
    ((resampleAux T ws wc ds).getLast?.map PriceSample.close) =
      some (((ds.getLast?).map PriceSample.close).getD wc) := by
  induction ds generalizing ws wc with
  | nil => simp [resampleAux]
  | cons d ds ih =>
    rw [resampleAux]
    split
    · rename_i h
      have hne := resampleAux_ne_nil T d.timestamp d.close ds
      obtain ⟨y, t, hy⟩ := List.exists_cons_of_ne_nil hne
      rw [hy, List.getLast?_cons_cons, ← hy, ih, getLast_close_cons]
    · rw [ih, getLast_close_cons]

/-- A boundary crossing inside the accumulator: when every sample of `pre`
is still inside the running bucket and `d` crosses the threshold, the bucket
closes with the last pre-crossing close and the fold restarts at `d`. -/
theorem resampleAux_boundary (T ws : ℤ) (wc : ℚ) (pre : List PriceSample)
    (d : PriceSample) (post : List PriceSample)
    (h1 : ∀ s ∈ pre, s.timestamp - ws < T)
    (h2 : d.timestamp - ws ≥ T) :
    resampleAux T ws wc (pre ++ d :: post) =
      { timestamp := ws, close := ((pre.getLast?).map PriceSample.close).getD wc }
        :: resampleAux T d.timestamp d.close post := by
  induction pre generalizing wc with
  | nil => rw [List.nil_append, resampleAux, if_pos h2]; simp
  | cons p pre ih =>
    have hp : ¬ (p.timestamp - ws ≥ T) := not_le.mpr (h1 p (by simp))
    rw [List.cons_append, resampleAux, if_neg hp,
      ih p.close (fun s hs => h1 s (List.mem_cons_of_mem p hs)), getLast_close_cons]

/-! ### Claims C5, C9 (series alignment), C6, C10 (bucket resampling) -/

/-- C5: the ratio alignment walks indices `0 .. min(len A, len B) - 1` (the
`zip`), emits exactly one `RatioPoint` — ratio `closeA / closeB`, seriesA's
timestamp — at each index where both closes are positive, and skips every
other index, preserving index order; and on two 5-element series whose
index 2 has a zero close in series B it yields exactly the 4 surviving
points in their original relative order. -/
theorem alignRatios_characterization :
    (∀ seriesA seriesB : List PriceSample,
        alignRatios seriesA seriesB =
          ((seriesA.zip seriesB).filter
              (fun p => decide (0 < p.2.close ∧ 0 < p.1.close))).map
            (fun p => { timestamp := p.1.timestamp, ratio := p.1.close / p.2.close })) ∧
    alignRatios
        [⟨0, 2⟩, ⟨1, 4⟩, ⟨2, 6⟩, ⟨3, 8⟩, ⟨4, 10⟩]
        [⟨0, 1⟩, ⟨1, 2⟩, ⟨2, 0⟩, ⟨3, 4⟩, ⟨4, 5⟩] =
      [⟨0, 2⟩, ⟨1, 2⟩, ⟨3, 2⟩, ⟨4, 2⟩] := by
  constructor
  · intro seriesA
    induction seriesA with
    | nil => intro seriesB; cases seriesB <;> simp [alignRatios]
    | cons a as ih =>
      intro seriesB
      cases seriesB with
      | nil => simp [alignRatios]
      | cons b bs =>
        by_cases h : 0 < b.close ∧ 0 < a.close
        · simp [alignRatios, h, ih]
        · simp [alignRatios, h, ih]
  · norm_num [alignRatios]

/-- C9: when no index of the two series yields a valid ratio point (at every
index in range, one of the two closes is ≤ 0 — which also covers an empty
shorter series, vacuously), the alignment stage aborts with `EmptyResult`
instead of succeeding with a zero-length series. -/
theorem computeRatioSeries_empty (dataA dataB : List PriceSample)
    (h : ∀ (i : ℕ) (a b : PriceSample),
        dataA[i]? = some a → dataB[i]? = some b → a.close ≤ 0 ∨ b.close ≤ 0) :
    computeRatioSeries dataA dataB = .error .EmptyResult := by
  have key : ∀ (xs ys : List PriceSample),
      (∀ (i : ℕ) (a b : PriceSample),
        xs[i]? = some a → ys[i]? = some b → a.close ≤ 0 ∨ b.close ≤ 0) →
      alignRatios xs ys = [] := by
    intro xs
    induction xs with
    | nil => intro ys _; cases ys <;> simp [alignRatios]
    | cons a as ih =>
      intro ys hys
      cases ys with
      | nil => simp [alignRatios]
      | cons b bs =>
        have h0 : a.close ≤ 0 ∨ b.close ≤ 0 := hys 0 a b (by simp) (by simp)
        have hcond : ¬ (0 < b.close ∧ 0 < a.close) := by
          rcases h0 with h0 | h0
          · exact fun hc => absurd hc.2 (not_lt.mpr h0)
          · exact fun hc => absurd hc.1 (not_lt.mpr h0)
        rw [alignRatios, if_neg hcond]
        exact ih bs (fun i x y hx hy => hys (i + 1) x y (by simpa using hx) (by simpa using hy))
  unfold computeRatioSeries
  rw [key dataA dataB h]
  rfl

/-- C9 witness: a 1-element pair of series whose only index has a zero close
in series B is rejected with `EmptyResult`. -/
theorem computeRatioSeries_empty_witness :
    computeRatioSeries [⟨0, 1⟩] [⟨0, 0⟩] = .error .EmptyResult := by
  apply computeRatioSeries_empty
  intro i a b ha hb
  match i with
  | 0 =>
    simp only [List.getElem?_cons_zero, Option.some.injEq] at ha hb
    right
    rw [← hb]
  | _ + 1 => simp at ha

/-- C10: on any non-empty input the resampler returns a non-empty result —
the trailing bucket is pushed even before `bucketDays` have elapsed — and
the final bucket's close is the close of the last input sample. -/
theorem resampleToWeekly_last (weeklyResampleDays : ℕ) (l : List PriceSample)
    (h : l ≠ []) :
    resampleToWeekly weeklyResampleDays l ≠ [] ∧
      (resampleToWeekly weeklyResampleDays l).getLast?.map PriceSample.close =
        l.getLast?.map PriceSample.close := by
  match l with
  | [] => exact absurd rfl h
  | d :: ds =>
    rw [resampleToWeekly]
    refine ⟨resampleAux_ne_nil _ _ _ _, ?_⟩
    rw [resampleAux_getLast_close, getLast_close_cons_some]

/-- C10 witness: three daily samples, one-week buckets — the single trailing
bucket is emitted with the last sample's close. -/
theorem resampleToWeekly_last_witness :
    resampleToWeekly 7 [⟨0, 1⟩, ⟨86400000, 2⟩, ⟨172800000, 3⟩] ≠ [] ∧
      (resampleToWeekly 7 [⟨0, 1⟩, ⟨86400000, 2⟩, ⟨172800000, 3⟩]).getLast?.map
          PriceSample.close =
        ([⟨0, 1⟩, ⟨86400000, 2⟩, ⟨172800000, 3⟩] : List PriceSample).getLast?.map
          PriceSample.close :=
  resampleToWeekly_last 7 _ (by simp)

/-- C6: a bucket starts at its first sample's timestamp; a new bucket begins
exactly at the first sample `d` whose elapsed time since the bucket start
reaches `bucketDays * 86,400,000` ms (every earlier sample `pre` being
strictly inside); and the completed bucket's recorded close is the close of
the last sample observed strictly before the crossing (`pre`'s last sample,
or the bucket-opening sample itself when the crossing is immediate). -/
theorem resampleToWeekly_boundary (weeklyResampleDays : ℕ) (d0 d : PriceSample)
    (pre post : List PriceSample)
    (h1 : ∀ s ∈ pre, s.timestamp - d0.timestamp <
            (weeklyResampleDays : ℤ) * (24 * 60 * 60 * 1000))
    (h2 : d.timestamp - d0.timestamp ≥ (weeklyResampleDays : ℤ) * (24 * 60 * 60 * 1000)) :
    resampleToWeekly weeklyResampleDays (d0 :: (pre ++ d :: post)) =
      { timestamp := d0.timestamp,
        close := ((pre.getLast?).map PriceSample.close).getD d0.close }
        :: resampleToWeekly weeklyResampleDays (d :: post) := by
  rw [resampleToWeekly, resampleToWeekly]
  exact resampleAux_boundary _ _ _ pre d post h1 h2

/-- C6 witness: 21 daily samples (day `k` has timestamp `k * 86,400,000` and
close `k`), one-week buckets. The first crossing is at day 7, closing the
first bucket with day 6's close, per the theorem; the full run yields exactly
3 buckets, each closing with the last sample strictly before its boundary. -/
theorem resampleToWeekly_boundary_witness :
    resampleToWeekly 7
        ((⟨0, 0⟩ : PriceSample) ::
          ([⟨86400000, 1⟩, ⟨172800000, 2⟩, ⟨259200000, 3⟩, ⟨345600000, 4⟩,
              ⟨432000000, 5⟩, ⟨518400000, 6⟩] ++ ⟨604800000, 7⟩ ::
            [⟨691200000, 8⟩, ⟨777600000, 9⟩, ⟨864000000, 10⟩, ⟨950400000, 11⟩,
              ⟨1036800000, 12⟩, ⟨1123200000, 13⟩, ⟨1209600000, 14⟩, ⟨1296000000, 15⟩,
              ⟨1382400000, 16⟩, ⟨1468800000, 17⟩, ⟨1555200000, 18⟩, ⟨1641600000, 19⟩,
              ⟨1728000000, 20⟩])) =
      { timestamp := 0,
        close := ((([⟨86400000, 1⟩, ⟨172800000, 2⟩, ⟨259200000, 3⟩, ⟨345600000, 4⟩,
            ⟨432000000, 5⟩, ⟨518400000, 6⟩] : List PriceSample).getLast?.map
              PriceSample.close).getD 0) }
        :: resampleToWeekly 7
            (⟨604800000, 7⟩ ::
              [⟨691200000, 8⟩, ⟨777600000, 9⟩, ⟨864000000, 10⟩, ⟨950400000, 11⟩,
                ⟨1036800000, 12⟩, ⟨1123200000, 13⟩, ⟨1209600000, 14⟩, ⟨1296000000, 15⟩,
                ⟨1382400000, 16⟩, ⟨1468800000, 17⟩, ⟨1555200000, 18⟩, ⟨1641600000, 19⟩,
                ⟨1728000000, 20⟩]) ∧
    resampleToWeekly 7
        [⟨0, 0⟩, ⟨86400000, 1⟩, ⟨172800000, 2⟩, ⟨259200000, 3⟩, ⟨345600000, 4⟩,
          ⟨432000000, 5⟩, ⟨518400000, 6⟩, ⟨604800000, 7⟩, ⟨691200000, 8⟩,
          ⟨777600000, 9⟩, ⟨864000000, 10⟩, ⟨950400000, 11⟩, ⟨1036800000, 12⟩,
          ⟨1123200000, 13⟩, ⟨1209600000, 14⟩, ⟨1296000000, 15⟩, ⟨1382400000, 16⟩,
          ⟨1468800000, 17⟩, ⟨1555200000, 18⟩, ⟨1641600000, 19⟩, ⟨1728000000, 20⟩] =
      [⟨0, 6⟩, ⟨604800000, 13⟩, ⟨1209600000, 20⟩] :=
  ⟨resampleToWeekly_boundary 7 ⟨0, 0⟩ ⟨604800000, 7⟩ _ _ (by decide) (by decide),
    by decide⟩

/-! ### Claim C1 (pool selection) -/

/-- Any member of a list is at most its `foldr Max.max 0`
(the `Math.max(...)` at pool-selector.js line 66). -/
theorem le_foldr_max {l : List ℕ} {x : ℕ} (hx : x ∈ l) : x ≤ l.foldr Max.max 0 := by
  induction l with
  | nil => simp at hx
  | cons a t ih =>
    rcases List.mem_cons.mp hx with h | h
    · subst h; exact le_max_left _ _
    · exact le_trans (ih h) (le_max_right _ _)

/-- `foldr Max.max 0` is at most any common upper bound. -/
theorem foldr_max_le {l : List ℕ} {M : ℕ} (h : ∀ x ∈ l, x ≤ M) : l.foldr Max.max 0 ≤ M := by
  induction l with
  | nil => simp
  | cons a t ih =>
    exact max_le (h a (by simp)) (ih (fun x hx => h x (List.mem_cons_of_mem a hx)))

/-- The head of the liquidity-descending sort is a most-liquid member
(the `goodAlternatives.sort(...)[0]` at pool-selector.js lines 84-85). -/
theorem head_insertionSort_liqDesc (l : List PoolEntry) (q : PoolEntry)
    (hq : (l.insertionSort liqDesc).head? = some q) :
    q ∈ l ∧ ∀ p ∈ l, p.liquidity ≤ q.liquidity := by
  have hperm := List.perm_insertionSort liqDesc l
  have hsort := List.sorted_insertionSort liqDesc l
  cases hs : l.insertionSort liqDesc with
  | nil => rw [hs] at hq; simp at hq
  | cons a t =>
    rw [hs] at hq
    simp only [List.head?_cons, Option.some.injEq] at hq
    subst hq
    rw [hs] at hperm hsort
    refine ⟨hperm.mem_iff.mp (by simp), fun p hp => ?_⟩
    rcases List.mem_cons.mp (hperm.mem_iff.mpr hp) with h | h
    · subst h; exact le_refl _
    · exact (List.pairwise_cons.mp hsort).1 p h

/-- C1: on a non-empty candidate list ordered by liquidity descending whose
maximal history depth is `M`: if the most liquid candidate (index 0) has
history depth ≥ half of `M` it is returned (and it is indeed most liquid);
otherwise, if some candidate has history depth exactly `M` and liquidity at
least 10% of the leader's, the most liquid such candidate is returned; and
with no such candidate the leader is returned. -/
theorem getBestPoolWithHistory_spec (l : List PoolEntry) (top : PoolEntry)
    (rest : List PoolEntry) (M : ℕ)
    (hl : l = top :: rest)
    (hsorted : l.Pairwise liqDesc)
    (hM1 : M ∈ l.map PoolEntry.historyDays)
    (hM2 : ∀ p ∈ l, p.historyDays ≤ M) :
    ((M : ℚ) ≤ 2 * (top.historyDays : ℚ) →
        getBestPoolWithHistory l = some top ∧ ∀ p ∈ l, p.liquidity ≤ top.liquidity) ∧
    (2 * (top.historyDays : ℚ) < (M : ℚ) →
      (l.filter (fun p => p.historyDays = M ∧ p.liquidity ≥ (1/10) * top.liquidity) ≠ [] →
          ∃ q, getBestPoolWithHistory l = some q ∧
            q ∈ l.filter (fun p => p.historyDays = M ∧ p.liquidity ≥ (1/10) * top.liquidity) ∧
            ∀ p ∈ l.filter (fun p => p.historyDays = M ∧ p.liquidity ≥ (1/10) * top.liquidity),
              p.liquidity ≤ q.liquidity) ∧
      (l.filter (fun p => p.historyDays = M ∧ p.liquidity ≥ (1/10) * top.liquidity) = [] →
          getBestPoolWithHistory l = some top)) := by
  subst hl
  have hmax : ((top :: rest).map PoolEntry.historyDays).foldr Max.max 0 = M :=
    le_antisymm (foldr_max_le (by
      intro x hx
      obtain ⟨p, hp, hpx⟩ := List.mem_map.mp hx
      exact hpx ▸ hM2 p hp))
      (le_foldr_max hM1)
  have hliq : ∀ p ∈ top :: rest, p.liquidity ≤ top.liquidity := by
    intro p hp
    rcases List.mem_cons.mp hp with h | h
    · subst h; exact le_refl _
    · exact (List.pairwise_cons.mp hsorted).1 p h
  constructor
  · intro hge
    have hcond : (top.historyDays : ℚ) ≥ (1/2) * (M : ℚ) := by linarith
    refine ⟨?_, hliq⟩
    rw [getBestPoolWithHistory]
    simp only [hmax]
    rw [if_pos hcond]
  · intro hlt
    have hcond : ¬ ((top.historyDays : ℚ) ≥ (1/2) * (M : ℚ)) := by
      intro hc
      rw [ge_iff_le] at hc
      linarith
    constructor
    · intro hne
      have hsne : ((top :: rest).filter
          (fun p => p.historyDays = M ∧ p.liquidity ≥ (1/10) * top.liquidity)).insertionSort
            liqDesc ≠ [] := by
        intro hnil
        have hperm := List.perm_insertionSort liqDesc ((top :: rest).filter
          (fun p => p.historyDays = M ∧ p.liquidity ≥ (1/10) * top.liquidity))
        rw [hnil] at hperm
        exact hne hperm.symm.eq_nil
      obtain ⟨q, t, hqt⟩ := List.exists_cons_of_ne_nil hsne
      have hhead : (((top :: rest).filter
          (fun p => p.historyDays = M ∧ p.liquidity ≥ (1/10) * top.liquidity)).insertionSort
            liqDesc).head? = some q := by rw [hqt]; rfl
      have hq := head_insertionSort_liqDesc _ q hhead
      refine ⟨q, ?_, hq.1, hq.2⟩
      rw [getBestPoolWithHistory]
      simp only [hmax]
      rw [if_neg hcond]
      simp only [hqt]
      rfl
    · intro hnil
      rw [getBestPoolWithHistory]
      simp only [hmax]
      rw [if_neg hcond]
      rw [hnil]
      rfl

/-- C1 witness: for candidates `[{liq:100, hist:2}, {liq:15, hist:30}]` the
leader's history (2) is below half of 30 and the alternative holds 15 ≥ 10%
of 100, so the selector returns the second candidate. -/
theorem getBestPoolWithHistory_spec_witness :
    getBestPoolWithHistory
        [⟨"0xaaa", "A / WPLS", 100, 2⟩, ⟨"0xbbb", "B / WPLS", 15, 30⟩] =
      some ⟨"0xbbb", "B / WPLS", 15, 30⟩ ∧
    (∃ q, getBestPoolWithHistory
          [⟨"0xaaa", "A / WPLS", 100, 2⟩, ⟨"0xbbb", "B / WPLS", 15, 30⟩] = some q ∧
        q ∈ ([⟨"0xaaa", "A / WPLS", 100, 2⟩, ⟨"0xbbb", "B / WPLS", 15, 30⟩] :
              List PoolEntry).filter
            (fun p => p.historyDays = 30 ∧ p.liquidity ≥ (1/10) * 100) ∧
        ∀ p ∈ ([⟨"0xaaa", "A / WPLS", 100, 2⟩, ⟨"0xbbb", "B / WPLS", 15, 30⟩] :
              List PoolEntry).filter
            (fun p => p.historyDays = 30 ∧ p.liquidity ≥ (1/10) * 100),
          p.liquidity ≤ q.liquidity) := by
  have hfilter : ([⟨"0xaaa", "A / WPLS", 100, 2⟩, ⟨"0xbbb", "B / WPLS", 15, 30⟩] :
        List PoolEntry).filter
      (fun p => p.historyDays = 30 ∧ p.liquidity ≥ (1/10) * 100) =
      [⟨"0xbbb", "B / WPLS", 15, 30⟩] := by
    norm_num [List.filter_cons]
  have h := (getBestPoolWithHistory_spec
      [⟨"0xaaa", "A / WPLS", 100, 2⟩, ⟨"0xbbb", "B / WPLS", 15, 30⟩]
      ⟨"0xaaa", "A / WPLS", 100, 2⟩ [⟨"0xbbb", "B / WPLS", 15, 30⟩] 30 rfl
      (by norm_num [List.pairwise_cons, liqDesc]) (by norm_num) (by
        intro p hp
        rcases List.mem_cons.mp hp with h | h
        · subst h; norm_num
        · rcases List.mem_cons.mp h with h | h
          · subst h; norm_num
          · simp at h)).2 (by norm_num)
  have hne : ([⟨"0xaaa", "A / WPLS", 100, 2⟩, ⟨"0xbbb", "B / WPLS", 15, 30⟩] :
        List PoolEntry).filter
      (fun p => p.historyDays = 30 ∧ p.liquidity ≥ (1/10) * 100) ≠ [] := by
    rw [hfilter]
    simp
  refine ⟨?_, h.1 hne⟩
  obtain ⟨q, hq, hqmem, -⟩ := h.1 hne
  rw [hfilter] at hqmem
  simp only [List.mem_singleton] at hqmem
  rw [hq, hqmem]

/-! ### Tick-generator groundwork: the step, the start, the trip count -/

/-- `Int.log` at a concretely bracketed argument. -/
theorem int_log_eq_of {b : ℕ} (hb : 1 < b) {r : ℚ} (hr : 0 < r) {e : ℤ}
    (h1 : (b : ℚ) ^ e ≤ r) (h2 : r < (b : ℚ) ^ (e + 1)) : Int.log b r = e := by
  have hle : e ≤ Int.log b r := (Int.zpow_le_iff_le_log hb hr).mp h1
  have hgt : Int.log b r < e + 1 := by
    by_contra hcon
    push_neg at hcon
    exact absurd ((Int.zpow_le_iff_le_log hb hr).mpr hcon) (not_le.mpr h2)
  omega

/-- The 1-2-5 ladder keeps the step within `[roughStep/2.5, roughStep]`. -/
theorem ladderStep_bounds (r : ℚ) (hr : 0 < r) :
    0 < ladderStep r ∧ ladderStep r ≤ r ∧ r ≤ 5 / 2 * ladderStep r := by
  have hlow : (10 : ℚ) ^ Int.log 10 r ≤ r := Int.zpow_log_le_self (by norm_num) hr
  have hhigh : r < (10 : ℚ) ^ (Int.log 10 r + 1) :=
    Int.lt_zpow_succ_log_self (by norm_num) r
  have hs0 : (0 : ℚ) < (10 : ℚ) ^ Int.log 10 r := zpow_pos (by norm_num) _
  have hhigh10 : r < 10 * (10 : ℚ) ^ Int.log 10 r := by
    rw [zpow_add_one₀ (by norm_num : (10 : ℚ) ≠ 0)] at hhigh
    linarith
  simp only [ladderStep]
  split_ifs with h1 h2
  · rw [gt_iff_lt, lt_div_iff₀ hs0] at h1
    exact ⟨by positivity, by linarith, by linarith⟩
  · rw [gt_iff_lt, not_lt, div_le_iff₀ hs0] at h1
    rw [gt_iff_lt, lt_div_iff₀ hs0] at h2
    exact ⟨by positivity, by linarith, by linarith⟩
  · rw [gt_iff_lt, not_lt, div_le_iff₀ hs0] at h2
    exact ⟨hs0, hlow, by linarith⟩

/-- Ladder evaluation, `roughStep/step0 ≤ 2` branch. -/
theorem ladderStep_eval_one (r : ℚ) (e : ℤ) (hlog : Int.log 10 r = e)
    (h2 : r ≤ 2 * (10 : ℚ) ^ e) : ladderStep r = (10 : ℚ) ^ e := by
  have hp : (0 : ℚ) < (10 : ℚ) ^ e := zpow_pos (by norm_num) _
  have hA : ¬ (r / (10 : ℚ) ^ e > 5) := by
    rw [gt_iff_lt, not_lt, div_le_iff₀ hp]
    linarith
  have hB : ¬ (r / (10 : ℚ) ^ e > 2) := by
    rw [gt_iff_lt, not_lt, div_le_iff₀ hp]
    linarith
  simp only [ladderStep, hlog]
  rw [if_neg hA, if_neg hB]

/-- Ladder evaluation, `2 < roughStep/step0 ≤ 5` branch. -/
theorem ladderStep_eval_two (r : ℚ) (e : ℤ) (hlog : Int.log 10 r = e)
    (hgt : 2 * (10 : ℚ) ^ e < r) (hle : r ≤ 5 * (10 : ℚ) ^ e) :
    ladderStep r = 2 * (10 : ℚ) ^ e := by
  have hp : (0 : ℚ) < (10 : ℚ) ^ e := zpow_pos (by norm_num) _
  have hA : ¬ (r / (10 : ℚ) ^ e > 5) := by
    rw [gt_iff_lt, not_lt, div_le_iff₀ hp]
    linarith
  have hB : r / (10 : ℚ) ^ e > 2 := by
    rw [gt_iff_lt, lt_div_iff₀ hp]
    linarith
  simp only [ladderStep, hlog]
  rw [if_neg hA, if_pos hB]

/-- The step is positive, at most the range, and at least `range/(2.5·(tickCount-1))`. -/
theorem tickStep_basic (min max : ℚ) (tc : ℕ) (h : min < max) (htc : 2 ≤ tc) :
    0 < tickStep min max tc ∧ tickStep min max tc ≤ max - min ∧
      max - min ≤ 5 / 2 * ((tc : ℚ) - 1) * tickStep min max tc := by
  have hrange : (0 : ℚ) < max - min := sub_pos.mpr h
  have htc2 : (2 : ℚ) ≤ (tc : ℚ) := by exact_mod_cast htc
  have htc1 : (1 : ℚ) ≤ (tc : ℚ) - 1 := by linarith
  have htc0 : (0 : ℚ) < (tc : ℚ) - 1 := by linarith
  have hrpos : 0 < (max - min) / ((tc : ℚ) - 1) := div_pos hrange htc0
  obtain ⟨l1, l2, l3⟩ := ladderStep_bounds _ hrpos
  have hrle : (max - min) / ((tc : ℚ) - 1) ≤ max - min := div_le_self (le_of_lt hrange) htc1
  have hM : ladderStep ((max - min) / ((tc : ℚ) - 1)) ≤ tickStep min max tc :=
    le_max_left _ _
  refine ⟨lt_of_lt_of_le l1 hM, max_le (le_trans l2 hrle) (by linarith), ?_⟩
  have heq : ((tc : ℚ) - 1) * ((max - min) / ((tc : ℚ) - 1)) = max - min := by
    field_simp
  calc max - min = ((tc : ℚ) - 1) * ((max - min) / ((tc : ℚ) - 1)) := heq.symm
    _ ≤ ((tc : ℚ) - 1) * (5 / 2 * ladderStep ((max - min) / ((tc : ℚ) - 1))) :=
        mul_le_mul_of_nonneg_left l3 (le_of_lt htc0)
    _ ≤ ((tc : ℚ) - 1) * (5 / 2 * tickStep min max tc) :=
        mul_le_mul_of_nonneg_left (by linarith) (le_of_lt htc0)
    _ = 5 / 2 * ((tc : ℚ) - 1) * tickStep min max tc := by ring

/-- Step evaluation once the ladder value and the clamp comparison are known. -/
theorem tickStep_eval (min max : ℚ) (tc : ℕ) (s : ℚ)
    (hladder : ladderStep ((max - min) / ((tc : ℚ) - 1)) = s)
    (hclamp : (max - min) / 1000 ≤ s) : tickStep min max tc = s := by
  unfold tickStep
  rw [hladder]
  exact max_eq_left hclamp

/-- The start lies in `[min, max]`: `floor(min/step)*step ≤ min`, and one
step of correction cannot overshoot `max` because `step ≤ range`. -/
theorem tickStart_bounds (min max : ℚ) (tc : ℕ) (h : min < max) (htc : 2 ≤ tc) :
    min ≤ tickStart min max tc ∧ tickStart min max tc ≤ max := by
  obtain ⟨hs_pos, hs_le, -⟩ := tickStep_basic min max tc h htc
  simp only [tickStart]
  set s := tickStep min max tc with hs
  have hfloor_le : (⌊min / s⌋ : ℚ) * s ≤ min := by
    calc (⌊min / s⌋ : ℚ) * s ≤ (min / s) * s :=
          mul_le_mul_of_nonneg_right (Int.floor_le _) (le_of_lt hs_pos)
      _ = min := div_mul_cancel₀ _ (ne_of_gt hs_pos)
  have hfloor_gt : min - s < (⌊min / s⌋ : ℚ) * s := by
    have h1 : min / s - 1 < (⌊min / s⌋ : ℚ) := by
      have := Int.lt_floor_add_one (min / s)
      linarith
    calc min - s = (min / s - 1) * s := by
          rw [sub_mul, div_mul_cancel₀ _ (ne_of_gt hs_pos), one_mul]
      _ < (⌊min / s⌋ : ℚ) * s := mul_lt_mul_of_pos_right h1 hs_pos
  split_ifs with hc
  · exact ⟨by linarith, by linarith⟩
  · rw [not_lt] at hc
    exact ⟨hc, by linarith⟩

/-- Start evaluation. -/
theorem tickStart_eval (min max : ℚ) (tc : ℕ) (s : ℚ) (n : ℤ) (v : ℚ)
    (hs : tickStep min max tc = s) (hn : ⌊min / s⌋ = n)
    (hv : (if (n : ℚ) * s < min then (n : ℚ) * s + s else (n : ℚ) * s) = v) :
    tickStart min max tc = v := by
  simp only [tickStart]
  rw [hs, hn, hv]

/-- The trip count is at least 1 and at most `2.5·(tickCount-1) + 1.5`. -/
theorem rawTickCount_bounds (min max : ℚ) (tc : ℕ) (h : min < max) (htc : 2 ≤ tc) :
    1 ≤ rawTickCount min max tc ∧
      (rawTickCount min max tc : ℚ) ≤ 5 / 2 * ((tc : ℚ) - 1) + 3 / 2 := by
  obtain ⟨hs_pos, hs_le, hr_le⟩ := tickStep_basic min max tc h htc
  obtain ⟨hst_ge, hst_le⟩ := tickStart_bounds min max tc h htc
  simp only [rawTickCount]
  set s := tickStep min max tc with hs
  set st := tickStart min max tc with hstdef
  set X := max + s / 2 - st with hX
  have hXpos : 0 < X := by
    rw [hX]
    linarith
  have hfl_nonneg : 0 ≤ ⌊X / s⌋ := Int.floor_nonneg.mpr (le_of_lt (div_pos hXpos hs_pos))
  refine ⟨by omega, ?_⟩
  have hdivle : X / s ≤ 5 / 2 * ((tc : ℚ) - 1) + 1 / 2 := by
    rw [div_le_iff₀ hs_pos]
    nlinarith
  have hcast : (((⌊X / s⌋ + 1).toNat : ℕ) : ℚ) = (⌊X / s⌋ : ℚ) + 1 := by
    have h1 : (((⌊X / s⌋ + 1).toNat : ℕ) : ℤ) = ⌊X / s⌋ + 1 :=
      Int.toNat_of_nonneg (by omega)
    exact_mod_cast congrArg (fun z : ℤ => (z : ℚ)) h1
  rw [hcast]
  have hfl : (⌊X / s⌋ : ℚ) ≤ X / s := Int.floor_le _
  linarith

/-- Trip-count evaluation. -/
theorem rawTickCount_eval (min max : ℚ) (tc : ℕ) (s v : ℚ) (m : ℤ)
    (hs : tickStep min max tc = s) (hv : tickStart min max tc = v)
    (hm : ⌊(max + s / 2 - v) / s⌋ = m) :
    rawTickCount min max tc = (m + 1).toNat := by
  simp only [rawTickCount]
  rw [hs, hv, hm]

/-- The loop's filter keeps everything (all emitted values are ≥ start ≥ min),
so the loop output is exactly the arithmetic progression, of length equal to
the trip count, starting at the start value and ending at `tickLast`. -/
theorem loopTicks_facts (min max : ℚ) (tc : ℕ) (h : min < max) (htc : 2 ≤ tc) :
    loopTicks min max tc =
      (List.range (rawTickCount min max tc)).map
        (fun (k : ℕ) => tickStart min max tc + (k : ℚ) * tickStep min max tc) ∧
    (loopTicks min max tc).length = rawTickCount min max tc ∧
    (loopTicks min max tc).head? = some (tickStart min max tc) ∧
    (loopTicks min max tc).getLast? = some (tickLast min max tc) := by
  obtain ⟨hs_pos, -, -⟩ := tickStep_basic min max tc h htc
  obtain ⟨hst_ge, -⟩ := tickStart_bounds min max tc h htc
  obtain ⟨hK1, -⟩ := rawTickCount_bounds min max tc h htc
  have heq : loopTicks min max tc =
      (List.range (rawTickCount min max tc)).map
        (fun (k : ℕ) => tickStart min max tc + (k : ℚ) * tickStep min max tc) := by
    simp only [loopTicks]
    rw [List.filter_eq_self]
    intro a ha
    obtain ⟨k, -, rfl⟩ := List.mem_map.mp ha
    rw [decide_eq_true_eq]
    have hk : (0 : ℚ) ≤ (k : ℚ) * tickStep min max tc :=
      mul_nonneg (Nat.cast_nonneg k) (le_of_lt hs_pos)
    have : min - tickStep min max tc / 10 < tickStart min max tc + (k : ℚ) * tickStep min max tc := by
      linarith
    exact le_of_lt this
  obtain ⟨K, hK⟩ : ∃ K, rawTickCount min max tc = K + 1 :=
    ⟨rawTickCount min max tc - 1, by omega⟩
  refine ⟨heq, ?_, ?_, ?_⟩
  · rw [heq, List.length_map, List.length_range]
  · rw [heq, hK, List.range_succ_eq_map, List.map_cons, List.head?_cons]
    norm_num
  · rw [heq, hK, List.range_succ, List.map_append, List.map_singleton,
      List.getLast?_concat]
    unfold tickLast
    rw [hK]
    norm_num

/-- The loop's last value brackets `max` within half a step. -/
theorem tickLast_bounds (min max : ℚ) (tc : ℕ) (h : min < max) (htc : 2 ≤ tc) :
    max - tickStep min max tc / 2 < tickLast min max tc ∧
      tickLast min max tc ≤ max + tickStep min max tc / 2 ∧
      tickStart min max tc ≤ tickLast min max tc := by
  obtain ⟨hs_pos, hs_le, -⟩ := tickStep_basic min max tc h htc
  obtain ⟨hst_ge, hst_le⟩ := tickStart_bounds min max tc h htc
  have hfl_nonneg : 0 ≤ ⌊(max + tickStep min max tc / 2 - tickStart min max tc) /
      tickStep min max tc⌋ := by
    apply Int.floor_nonneg.mpr
    apply le_of_lt
    apply div_pos _ hs_pos
    linarith
  have hKval : ((rawTickCount min max tc - 1 : ℕ) : ℚ) =
      (⌊(max + tickStep min max tc / 2 - tickStart min max tc) / tickStep min max tc⌋ : ℚ) := by
    simp only [rawTickCount]
    have h1 : ((⌊(max + tickStep min max tc / 2 - tickStart min max tc) /
        tickStep min max tc⌋ + 1).toNat) - 1 =
        ⌊(max + tickStep min max tc / 2 - tickStart min max tc) / tickStep min max tc⌋.toNat := by
      omega
    rw [h1]
    exact_mod_cast congrArg (fun z : ℤ => (z : ℚ))
      (Int.toNat_of_nonneg hfl_nonneg)
  have hfl_le : (⌊(max + tickStep min max tc / 2 - tickStart min max tc) /
      tickStep min max tc⌋ : ℚ) ≤
      (max + tickStep min max tc / 2 - tickStart min max tc) / tickStep min max tc :=
    Int.floor_le _
  have hfl_gt : (max + tickStep min max tc / 2 - tickStart min max tc) /
      tickStep min max tc - 1 <
      (⌊(max + tickStep min max tc / 2 - tickStart min max tc) / tickStep min max tc⌋ : ℚ) := by
    have := Int.lt_floor_add_one ((max + tickStep min max tc / 2 - tickStart min max tc) /
      tickStep min max tc)
    linarith
  have hmul : (⌊(max + tickStep min max tc / 2 - tickStart min max tc) /
      tickStep min max tc⌋ : ℚ) * tickStep min max tc ≤
      max + tickStep min max tc / 2 - tickStart min max tc := by
    calc (⌊(max + tickStep min max tc / 2 - tickStart min max tc) /
          tickStep min max tc⌋ : ℚ) * tickStep min max tc ≤
        ((max + tickStep min max tc / 2 - tickStart min max tc) / tickStep min max tc) *
          tickStep min max tc := mul_le_mul_of_nonneg_right hfl_le (le_of_lt hs_pos)
      _ = max + tickStep min max tc / 2 - tickStart min max tc :=
          div_mul_cancel₀ _ (ne_of_gt hs_pos)
  have hmul_gt : max + tickStep min max tc / 2 - tickStart min max tc - tickStep min max tc <
      (⌊(max + tickStep min max tc / 2 - tickStart min max tc) /
        tickStep min max tc⌋ : ℚ) * tickStep min max tc := by
    calc max + tickStep min max tc / 2 - tickStart min max tc - tickStep min max tc
        = ((max + tickStep min max tc / 2 - tickStart min max tc) / tickStep min max tc - 1) *
            tickStep min max tc := by
          rw [sub_mul, div_mul_cancel₀ _ (ne_of_gt hs_pos), one_mul]
      _ < _ := mul_lt_mul_of_pos_right hfl_gt hs_pos
  unfold tickLast
  rw [hKval]
  refine ⟨by linarith, by linarith, ?_⟩
  have : 0 ≤ (⌊(max + tickStep min max tc / 2 - tickStart min max tc) /
      tickStep min max tc⌋ : ℚ) * tickStep min max tc :=
    mul_nonneg (by exact_mod_cast hfl_nonneg) (le_of_lt hs_pos)
  linarith

/-- Every loop value lies between the start and `tickLast`, and any value
other than `tickLast` is at least one full step below it. -/
theorem loopTicks_mem_bounds (min max : ℚ) (tc : ℕ) (h : min < max) (htc : 2 ≤ tc) :
    ∀ v ∈ loopTicks min max tc,
      tickStart min max tc ≤ v ∧ v ≤ tickLast min max tc ∧
        (v = tickLast min max tc ∨ v + tickStep min max tc ≤ tickLast min max tc) := by
  obtain ⟨hs_pos, -, -⟩ := tickStep_basic min max tc h htc
  obtain ⟨hloop_eq, -, -, -⟩ := loopTicks_facts min max tc h htc
  obtain ⟨hK1, -⟩ := rawTickCount_bounds min max tc h htc
  intro v hv
  rw [hloop_eq] at hv
  obtain ⟨k, hk, rfl⟩ := List.mem_map.mp hv
  rw [List.mem_range] at hk
  have hkle : k ≤ rawTickCount min max tc - 1 := by omega
  have hcast : ((k : ℕ) : ℚ) ≤ ((rawTickCount min max tc - 1 : ℕ) : ℚ) := by
    exact_mod_cast hkle
  have hknn : (0 : ℚ) ≤ (k : ℚ) := Nat.cast_nonneg k
  unfold tickLast
  refine ⟨by nlinarith, by nlinarith, ?_⟩
  rcases Nat.lt_or_ge k (rawTickCount min max tc - 1) with hlt | hge
  · right
    have hsucc : ((k : ℕ) : ℚ) + 1 ≤ ((rawTickCount min max tc - 1 : ℕ) : ℚ) := by
      exact_mod_cast hlt
    nlinarith
  · left
    have : k = rawTickCount min max tc - 1 := by omega
    rw [this]

/-- The loop values are pairwise distinct (the progression is strictly
increasing). -/
theorem loopTicks_nodup (min max : ℚ) (tc : ℕ) (h : min < max) (htc : 2 ≤ tc) :
    (loopTicks min max tc).Nodup := by
  obtain ⟨hs_pos, -, -⟩ := tickStep_basic min max tc h htc
  obtain ⟨hloop_eq, -, -, -⟩ := loopTicks_facts min max tc h htc
  rw [hloop_eq]
  refine List.Nodup.map ?_ (List.nodup_range _)
  intro a b hab
  have : (a : ℚ) * tickStep min max tc = (b : ℚ) * tickStep min max tc := by
    have := hab
    dsimp at this
    linarith [this]
  have : (a : ℚ) = (b : ℚ) := mul_right_cancel₀ (ne_of_gt hs_pos) this
  exact_mod_cast this

/-- `getLast?` ignores a prepended element when the tail is non-empty. -/
theorem getLast?_cons_ne {α : Type} (a : α) {l : List α} (hl : l ≠ []) :
    (a :: l).getLast? = l.getLast? := by
  cases l with
  | nil => exact absurd rfl hl
  | cons b t => exact List.getLast?_cons_cons

/-- Closed form of the force-include stage: prepend `min` exactly when the
loop's first value misses it by more than `step/10`, append `max` exactly
when the loop's last value misses it by more than `step/10`. -/
theorem forcedTicks_eq (min max : ℚ) (tc : ℕ) (h : min < max) (htc : 2 ≤ tc) :
    forcedTicks min max tc =
      (if |tickStart min max tc - min| > tickStep min max tc / 10 then [min] else []) ++
        loopTicks min max tc ++
        (if |tickLast min max tc - max| > tickStep min max tc / 10 then [max] else []) := by
  obtain ⟨-, -, hhead, hlast⟩ := loopTicks_facts min max tc h htc
  have hL_ne : loopTicks min max tc ≠ [] := by
    intro hnil
    rw [hnil] at hhead
    simp at hhead
  simp only [forcedTicks]
  rw [hhead, Option.elim_some]
  by_cases hA : |tickStart min max tc - min| > tickStep min max tc / 10
  · rw [if_pos hA, if_pos hA, getLast?_cons_ne _ hL_ne, hlast, Option.elim_some]
    by_cases hB : |tickLast min max tc - max| > tickStep min max tc / 10
    · rw [if_pos hB, if_pos hB]
      simp
    · rw [if_neg hB, if_neg hB]
      simp
  · rw [if_neg hA, if_neg hA, hlast, Option.elim_some]
    by_cases hB : |tickLast min max tc - max| > tickStep min max tc / 10
    · rw [if_pos hB, if_pos hB]
      simp
    · rw [if_neg hB, if_neg hB]
      simp

/-- No forced endpoint can collide with a loop value, so the forced list is
duplicate-free. -/
theorem forcedTicks_nodup (min max : ℚ) (tc : ℕ) (h : min < max) (htc : 2 ≤ tc) :
    (forcedTicks min max tc).Nodup := by
  obtain ⟨hs_pos, hs_le, -⟩ := tickStep_basic min max tc h htc
  obtain ⟨hst_ge, hst_le⟩ := tickStart_bounds min max tc h htc
  obtain ⟨-, hlast_le, -⟩ := tickLast_bounds min max tc h htc
  have hnodupL := loopTicks_nodup min max tc h htc
  have hmem := loopTicks_mem_bounds min max tc h htc
  have hmin_notin : |tickStart min max tc - min| > tickStep min max tc / 10 →
      min ∉ loopTicks min max tc := by
    intro hA hmemmin
    obtain ⟨h1, -, -⟩ := hmem min hmemmin
    have : tickStart min max tc = min := le_antisymm h1 hst_ge
    rw [this] at hA
    simp at hA
    linarith
  have hmax_notin : |tickLast min max tc - max| > tickStep min max tc / 10 →
      max ∉ loopTicks min max tc := by
    intro hB hmemmax
    obtain ⟨-, -, hcase⟩ := hmem max hmemmax
    rcases hcase with hcase | hcase
    · rw [← hcase] at hB
      simp at hB
      linarith
    · linarith
  rw [forcedTicks_eq min max tc h htc]
  have hLmax : (loopTicks min max tc ++
      (if |tickLast min max tc - max| > tickStep min max tc / 10 then [max] else [])).Nodup := by
    by_cases hB : |tickLast min max tc - max| > tickStep min max tc / 10
    · rw [if_pos hB]
      refine List.Nodup.append hnodupL (List.nodup_singleton max) ?_
      intro a haL hamax
      rw [List.mem_singleton] at hamax
      subst hamax
      exact hmax_notin hB haL
    · rw [if_neg hB]
      simpa using hnodupL
  by_cases hA : |tickStart min max tc - min| > tickStep min max tc / 10
  · rw [if_pos hA]
    rw [List.singleton_append]
    refine List.nodup_cons.mpr ⟨?_, hLmax⟩
    intro hmemcat
    simp only [List.append_eq, List.mem_append] at hmemcat
    rcases hmemcat with hc | hc
    · exact hmin_notin hA hc
    · by_cases hB : |tickLast min max tc - max| > tickStep min max tc / 10
      · rw [if_pos hB, List.mem_singleton] at hc
        exact absurd hc (ne_of_lt h)
      · rw [if_neg hB] at hc
        simp at hc
  · rw [if_neg hA]
    simpa using hLmax

/-! ### Properties of the 15-decimal rounding -/

/-- `round15` is monotone. -/
theorem round15_mono {q r : ℚ} (hqr : q ≤ r) : round15 q ≤ round15 r := by
  unfold round15
  have hfl : ⌊q * 10 ^ 15 + 1 / 2⌋ ≤ ⌊r * 10 ^ 15 + 1 / 2⌋ := by
    apply Int.floor_le_floor
    have : q * 10 ^ 15 ≤ r * 10 ^ 15 := by
      apply mul_le_mul_of_nonneg_right hqr
      positivity
    linarith
  have hc : ((⌊q * 10 ^ 15 + 1 / 2⌋ : ℤ) : ℚ) ≤ ((⌊r * 10 ^ 15 + 1 / 2⌋ : ℤ) : ℚ) := by
    exact_mod_cast hfl
  rw [div_eq_mul_inv, div_eq_mul_inv]
  exact mul_le_mul_of_nonneg_right hc (by positivity)

/-- `round15` moves a value by at most half a unit in the 15th decimal. -/
theorem round15_approx (q : ℚ) : |round15 q - q| ≤ 1 / (2 * 10 ^ 15) := by
  unfold round15
  have h1 : ((⌊q * 10 ^ 15 + 1 / 2⌋ : ℤ) : ℚ) ≤ q * 10 ^ 15 + 1 / 2 := Int.floor_le _
  have h2 : q * 10 ^ 15 + 1 / 2 < ((⌊q * 10 ^ 15 + 1 / 2⌋ : ℤ) : ℚ) + 1 :=
    Int.lt_floor_add_one _
  have heq : ((⌊q * 10 ^ 15 + 1 / 2⌋ : ℤ) : ℚ) / 10 ^ 15 - q =
      (((⌊q * 10 ^ 15 + 1 / 2⌋ : ℤ) : ℚ) - q * 10 ^ 15) / 10 ^ 15 := by
    field_simp
    ring
  rw [heq, abs_div, abs_of_pos (by norm_num : (0:ℚ) < (10:ℚ)^15),
    div_le_iff₀ (by norm_num : (0:ℚ) < (10:ℚ)^15),
    show (1:ℚ) / (2 * 10 ^ 15) * 10 ^ 15 = 1 / 2 from by norm_num, abs_le]
  constructor <;> linarith

/-- `round15` fixes integers. -/
theorem round15_intCast (n : ℤ) : round15 (n : ℚ) = n := by
  unfold round15
  have h : (n : ℚ) * 10 ^ 15 + 1 / 2 = 1 / 2 + ((n * 10 ^ 15 : ℤ) : ℚ) := by
    push_cast
    ring
  rw [h, Int.floor_add_int]
  have hfl : ⌊(1 : ℚ) / 2⌋ = 0 := by
    apply Int.floor_eq_iff.mpr
    norm_num
  rw [hfl]
  push_cast
  rw [zero_add]
  field_simp
  left
  norm_num

/-- `round15` is idempotent. -/
theorem round15_idem (q : ℚ) : round15 (round15 q) = round15 q := by
  conv_lhs => rw [round15]
  rw [show round15 q * 10 ^ 15 + 1 / 2 =
      1 / 2 + ((⌊q * 10 ^ 15 + 1 / 2⌋ : ℤ) : ℚ) from by
    unfold round15
    rw [div_mul_cancel₀ _ (by norm_num : ((10:ℚ)^15) ≠ 0)]
    ring]
  rw [Int.floor_add_int]
  have hfl : ⌊(1 : ℚ) / 2⌋ = 0 := by
    apply Int.floor_eq_iff.mpr
    norm_num
  rw [hfl]
  unfold round15
  push_cast
  ring

/-- `round15` evaluation given the rounded integer. -/
theorem round15_eval (q : ℚ) (n : ℤ) (hn : ⌊q * 10 ^ 15 + 1 / 2⌋ = n) :
    round15 q = (n : ℚ) / 10 ^ 15 := by
  unfold round15
  rw [hn]

/-! ### Structure of the generated tick list -/

/-- On a proper range the generator is round–dedup–sort of the forced list. -/
theorem generateNiceTicks_eq (min max : ℚ) (tc : ℕ) (h : min < max) :
    generateNiceTicks min max tc =
      List.insertionSort (· ≤ ·) ((forcedTicks min max tc).map round15).dedup := by
  unfold generateNiceTicks
  rw [if_neg (ne_of_lt h), if_neg (not_lt.mpr (le_of_lt h))]

/-- Membership in the output is membership of a rounded forced tick. -/
theorem mem_generateNiceTicks (min max : ℚ) (tc : ℕ) (h : min < max) {x : ℚ} :
    x ∈ generateNiceTicks min max tc ↔ ∃ v ∈ forcedTicks min max tc, round15 v = x := by
  rw [generateNiceTicks_eq min max tc h, (List.perm_insertionSort _ _).mem_iff,
    List.mem_dedup, List.mem_map]

/-- The output is sorted (weakly, pending dedup reasoning). -/
theorem generateNiceTicks_sorted_le (min max : ℚ) (tc : ℕ) (h : min < max) :
    (generateNiceTicks min max tc).Sorted (· ≤ ·) := by
  rw [generateNiceTicks_eq min max tc h]
  exact List.sorted_insertionSort _ _

/-- The head of a `≤`-sorted list is a lower bound for its members. -/
theorem headI_le_of_sorted {l : List ℚ} (hs : l.Sorted (· ≤ ·)) {y : ℚ} (hy : y ∈ l) :
    l.headI ≤ y := by
  cases l with
  | nil => simp at hy
  | cons a t =>
    rcases List.mem_cons.mp hy with rfl | hyt
    · simp
    · simpa using List.rel_of_sorted_cons hs y hyt

/-- `getLastI` of a list with an explicit last element. -/
theorem getLastI_concat (z : ℚ) (ys : List ℚ) : (ys ++ [z]).getLastI = z := by
  rw [List.getLastI_eq_getLast?, List.getLast?_concat]

/-- The last element of a `≤`-sorted list is an upper bound for its members. -/
theorem le_getLastI_of_sorted {l : List ℚ} (hs : l.Sorted (· ≤ ·)) (hne : l ≠ [])
    {y : ℚ} (hy : y ∈ l) : y ≤ l.getLastI := by
  rcases List.eq_nil_or_concat l with rfl | ⟨ys, z, rfl⟩
  · exact absurd rfl hne
  · rw [List.concat_eq_append] at hs hy ⊢
    rw [getLastI_concat]
    rcases List.mem_append.mp hy with hy | hy
    · exact (List.pairwise_append.mp hs).2.2 y hy z (by simp)
    · rw [List.mem_singleton] at hy
      exact le_of_eq hy

/-- A non-empty list's `headI` and `getLastI` are members. -/
theorem headI_mem_of_ne_nil {l : List ℚ} (hne : l ≠ []) : l.headI ∈ l := by
  cases l with
  | nil => exact absurd rfl hne
  | cons a t => simp

/-- `getLastI` of a non-empty list is a member. -/
theorem getLastI_mem_of_ne_nil {l : List ℚ} (hne : l ≠ []) : l.getLastI ∈ l := by
  rcases List.eq_nil_or_concat l with rfl | ⟨ys, z, rfl⟩
  · exact absurd rfl hne
  · rw [List.concat_eq_append, getLastI_concat]
    simp

/-- The last element named by `getLast?` is a member. -/
theorem mem_of_getLast?_eq {α : Type} {l : List α} {a : α} (hl : l.getLast? = some a) :
    a ∈ l := by
  obtain ⟨ys, rfl⟩ := List.getLast?_eq_some_iff.mp hl
  simp

/-- Output head and last from extreme members of the forced list. -/
theorem generateNiceTicks_extremes (min max : ℚ) (tc : ℕ) (h : min < max)
    (ml mh : ℚ)
    (hmlmem : ml ∈ forcedTicks min max tc) (hmlb : ∀ v ∈ forcedTicks min max tc, ml ≤ v)
    (hmhmem : mh ∈ forcedTicks min max tc) (hmhb : ∀ v ∈ forcedTicks min max tc, v ≤ mh) :
    generateNiceTicks min max tc ≠ [] ∧
    (generateNiceTicks min max tc).headI = round15 ml ∧
    (generateNiceTicks min max tc).getLastI = round15 mh := by
  have hsorted := generateNiceTicks_sorted_le min max tc h
  have hmlgen : round15 ml ∈ generateNiceTicks min max tc :=
    (mem_generateNiceTicks min max tc h).mpr ⟨ml, hmlmem, rfl⟩
  have hmhgen : round15 mh ∈ generateNiceTicks min max tc :=
    (mem_generateNiceTicks min max tc h).mpr ⟨mh, hmhmem, rfl⟩
  have hne : generateNiceTicks min max tc ≠ [] := List.ne_nil_of_mem hmlgen
  refine ⟨hne, ?_, ?_⟩
  · have h1 : (generateNiceTicks min max tc).headI ≤ round15 ml :=
      headI_le_of_sorted hsorted hmlgen
    obtain ⟨v, hvF, hvx⟩ := (mem_generateNiceTicks min max tc h).mp
      (headI_mem_of_ne_nil hne)
    have h2 : round15 ml ≤ (generateNiceTicks min max tc).headI := by
      rw [← hvx]
      exact round15_mono (hmlb v hvF)
    exact le_antisymm h1 h2
  · have h1 : round15 mh ≤ (generateNiceTicks min max tc).getLastI :=
      le_getLastI_of_sorted hsorted hne hmhgen
    obtain ⟨v, hvF, hvx⟩ := (mem_generateNiceTicks min max tc h).mp
      (getLastI_mem_of_ne_nil hne)
    have h2 : (generateNiceTicks min max tc).getLastI ≤ round15 mh := by
      rw [← hvx]
      exact round15_mono (hmhb v hvF)
    exact le_antisymm h2 h1

/-- The generated list is non-empty, its first element is the rounding of
`min` (when force-included) or of the loop's start value, and its last
element is the rounding of `max(lastLoopValue, max)` (when `max` is
force-included) or of the loop's last value. -/
theorem generateNiceTicks_head_last (min max : ℚ) (tc : ℕ) (h : min < max) (htc : 2 ≤ tc) :
    generateNiceTicks min max tc ≠ [] ∧
    (generateNiceTicks min max tc).headI =
      round15 (if |tickStart min max tc - min| > tickStep min max tc / 10
               then min else tickStart min max tc) ∧
    (generateNiceTicks min max tc).getLastI =
      round15 (if |tickLast min max tc - max| > tickStep min max tc / 10
               then Max.max (tickLast min max tc) max else tickLast min max tc) := by
  obtain ⟨hs_pos, hs_le, -⟩ := tickStep_basic min max tc h htc
  obtain ⟨hst_ge, hst_le⟩ := tickStart_bounds min max tc h htc
  obtain ⟨-, -, hstlast⟩ := tickLast_bounds min max tc h htc
  have hFeq := forcedTicks_eq min max tc h htc
  have hmemB := loopTicks_mem_bounds min max tc h htc
  obtain ⟨-, -, hhead, hlastq⟩ := loopTicks_facts min max tc h htc
  have hL_ne : loopTicks min max tc ≠ [] := by
    intro hnil
    rw [hnil] at hhead
    simp at hhead
  have hstL : tickStart min max tc ∈ loopTicks min max tc := by
    cases hcl : loopTicks min max tc with
    | nil => exact absurd hcl hL_ne
    | cons x t =>
      rw [hcl] at hhead
      simp only [List.head?_cons, Option.some.injEq] at hhead
      rw [← hhead]
      simp
  have hlastL : tickLast min max tc ∈ loopTicks min max tc := mem_of_getLast?_eq hlastq
  by_cases hA : |tickStart min max tc - min| > tickStep min max tc / 10 <;>
    by_cases hB : |tickLast min max tc - max| > tickStep min max tc / 10
  · rw [if_pos hA, if_pos hB] at hFeq ⊢
    apply generateNiceTicks_extremes min max tc h
    · rw [hFeq]
      simp
    · intro v hv
      rw [hFeq] at hv
      simp only [List.mem_append, List.mem_singleton] at hv
      rcases hv with (hv | hv) | hv
      · exact le_of_eq hv.symm
      · exact le_trans hst_ge (hmemB v hv).1
      · rw [hv]
        exact le_of_lt h
    · rw [hFeq]
      rcases le_total (tickLast min max tc) max with hc | hc
      · rw [max_eq_right hc]
        simp
      · rw [max_eq_left hc]
        simp only [List.mem_append, List.mem_singleton]
        exact Or.inl (Or.inr hlastL)
    · intro v hv
      rw [hFeq] at hv
      simp only [List.mem_append, List.mem_singleton] at hv
      rcases hv with (hv | hv) | hv
      · rw [hv]
        exact le_trans (le_of_lt h) (le_max_right _ _)
      · exact le_trans (hmemB v hv).2.1 (le_max_left _ _)
      · rw [hv]
        exact le_max_right _ _
  · rw [if_pos hA, if_neg hB] at hFeq ⊢
    rw [List.append_nil] at hFeq
    apply generateNiceTicks_extremes min max tc h
    · rw [hFeq]
      simp
    · intro v hv
      rw [hFeq] at hv
      simp only [List.mem_append, List.mem_singleton] at hv
      rcases hv with hv | hv
      · exact le_of_eq hv.symm
      · exact le_trans hst_ge (hmemB v hv).1
    · rw [hFeq]
      simp only [List.mem_append, List.mem_singleton]
      exact Or.inr hlastL
    · intro v hv
      rw [hFeq] at hv
      simp only [List.mem_append, List.mem_singleton] at hv
      rcases hv with hv | hv
      · rw [hv]
        exact le_trans hst_ge hstlast
      · exact (hmemB v hv).2.1
  · rw [if_neg hA, if_pos hB] at hFeq ⊢
    rw [List.nil_append] at hFeq
    apply generateNiceTicks_extremes min max tc h
    · rw [hFeq]
      exact List.mem_append.mpr (Or.inl hstL)
    · intro v hv
      rw [hFeq] at hv
      simp only [List.mem_append, List.mem_singleton] at hv
      rcases hv with hv | hv
      · exact (hmemB v hv).1
      · rw [hv]
        exact hst_le
    · rw [hFeq]
      rcases le_total (tickLast min max tc) max with hc | hc
      · rw [max_eq_right hc]
        simp
      · rw [max_eq_left hc]
        exact List.mem_append.mpr (Or.inl hlastL)
    · intro v hv
      rw [hFeq] at hv
      simp only [List.mem_append, List.mem_singleton] at hv
      rcases hv with hv | hv
      · exact le_trans (hmemB v hv).2.1 (le_max_left _ _)
      · rw [hv]
        exact le_max_right _ _
  · rw [if_neg hA, if_neg hB] at hFeq ⊢
    rw [List.nil_append, List.append_nil] at hFeq
    apply generateNiceTicks_extremes min max tc h
    · rw [hFeq]
      exact hstL
    · intro v hv
      rw [hFeq] at hv
      exact (hmemB v hv).1
    · rw [hFeq]
      exact hlastL
    · intro v hv
      rw [hFeq] at hv
      exact (hmemB v hv).2.1

/-- The output length is at most the loop trip count plus the two forced
endpoints, hence at most `2.5·(tickCount-1) + 3.5`. -/
theorem generateNiceTicks_length_le (min max : ℚ) (tc : ℕ) (h : min < max) (htc : 2 ≤ tc) :
    2 * (generateNiceTicks min max tc).length ≤ 5 * (tc - 1) + 7 := by
  obtain ⟨hK1, hK2⟩ := rawTickCount_bounds min max tc h htc
  obtain ⟨-, hlen, -, -⟩ := loopTicks_facts min max tc h htc
  have h1 : (generateNiceTicks min max tc).length =
      ((forcedTicks min max tc).map round15).dedup.length := by
    rw [generateNiceTicks_eq min max tc h]
    exact (List.perm_insertionSort _ _).length_eq
  have h2 : ((forcedTicks min max tc).map round15).dedup.length ≤
      (forcedTicks min max tc).length := by
    calc ((forcedTicks min max tc).map round15).dedup.length
        ≤ ((forcedTicks min max tc).map round15).length :=
          (List.dedup_sublist _).length_le
      _ = (forcedTicks min max tc).length := List.length_map _ _
  have h3 : (forcedTicks min max tc).length ≤ rawTickCount min max tc + 2 := by
    rw [forcedTicks_eq min max tc h htc, List.length_append, List.length_append, hlen]
    have ha : (if |tickStart min max tc - min| > tickStep min max tc / 10
        then [min] else ([] : List ℚ)).length ≤ 1 := by
      split_ifs <;> simp
    have hb : (if |tickLast min max tc - max| > tickStep min max tc / 10
        then [max] else ([] : List ℚ)).length ≤ 1 := by
      split_ifs <;> simp
    omega
  have hKnat : 2 * rawTickCount min max tc ≤ 5 * (tc - 1) + 3 := by
    have hc : ((2 * rawTickCount min max tc : ℕ) : ℚ) ≤ ((5 * (tc - 1) + 3 : ℕ) : ℚ) := by
      push_cast [Nat.cast_sub (show 1 ≤ tc by omega)]
      linarith
    exact_mod_cast hc
  omega

/-- C2 (amended): for `min < max` and `tickCount ≥ 2` the generated sequence
is non-empty; its first element is within `step/10 + 5·10⁻¹⁶` of `min` (the
`step/10` force-include tolerance plus half an ulp of the 15-decimal
rounding); its last element is either at least `max - 5·10⁻¹⁶` or within
`step/10 + 5·10⁻¹⁶` of `max`; and twice its length is at most
`5·(tickCount-1) + 7` (the 1-2-5 ladder can emit up to
`2.5·(tickCount-1) + 1.5` values, plus the two forced endpoints — the
original bound `tickCount + 2` does not hold). -/
theorem generateNiceTicks_bounds (min max : ℚ) (tickCount : ℕ)
    (h : min < max) (htc : 2 ≤ tickCount) :
    generateNiceTicks min max tickCount ≠ [] ∧
    |(generateNiceTicks min max tickCount).headI - min| ≤
      tickStep min max tickCount / 10 + 1 / (2 * 10 ^ 15) ∧
    (max - 1 / (2 * 10 ^ 15) ≤ (generateNiceTicks min max tickCount).getLastI ∨
      |(generateNiceTicks min max tickCount).getLastI - max| ≤
        tickStep min max tickCount / 10 + 1 / (2 * 10 ^ 15)) ∧
    2 * (generateNiceTicks min max tickCount).length ≤ 5 * (tickCount - 1) + 7 := by
  obtain ⟨hne, hhead, hlast⟩ := generateNiceTicks_head_last min max tickCount h htc
  obtain ⟨hs_pos, -, -⟩ := tickStep_basic min max tickCount h htc
  refine ⟨hne, ?_, ?_, generateNiceTicks_length_le min max tickCount h htc⟩
  · rw [hhead]
    by_cases hA : |tickStart min max tickCount - min| > tickStep min max tickCount / 10
    · rw [if_pos hA]
      have h1 := round15_approx min
      have h2 : (0 : ℚ) < tickStep min max tickCount / 10 := by positivity
      linarith
    · rw [if_neg hA]
      rw [gt_iff_lt, not_lt] at hA
      have h1 := round15_approx (tickStart min max tickCount)
      have h2 := abs_sub_le (round15 (tickStart min max tickCount))
        (tickStart min max tickCount) min
      linarith
  · rw [hlast]
    by_cases hB : |tickLast min max tickCount - max| > tickStep min max tickCount / 10
    · left
      rw [if_pos hB]
      have h1 := abs_le.mp (round15_approx (Max.max (tickLast min max tickCount) max))
      have h2 : max ≤ Max.max (tickLast min max tickCount) max := le_max_right _ _
      linarith [h1.1]
    · right
      rw [if_neg hB]
      rw [gt_iff_lt, not_lt] at hB
      have h1 := round15_approx (tickLast min max tickCount)
      have h2 := abs_sub_le (round15 (tickLast min max tickCount))
        (tickLast min max tickCount) max
      linarith

/-- C2 witness: the amended bounds instantiated at `min = 0`, `max = 1`,
`tickCount = 10`. -/
theorem generateNiceTicks_bounds_witness :
    (0 : ℚ) < 1 ∧ 2 ≤ 10 ∧
    (generateNiceTicks 0 1 10 ≠ [] ∧
      |(generateNiceTicks 0 1 10).headI - 0| ≤ tickStep 0 1 10 / 10 + 1 / (2 * 10 ^ 15) ∧
      ((1 : ℚ) - 1 / (2 * 10 ^ 15) ≤ (generateNiceTicks 0 1 10).getLastI ∨
        |(generateNiceTicks 0 1 10).getLastI - 1| ≤ tickStep 0 1 10 / 10 + 1 / (2 * 10 ^ 15)) ∧
      2 * (generateNiceTicks 0 1 10).length ≤ 5 * (10 - 1) + 7) :=
  ⟨by norm_num, by norm_num, generateNiceTicks_bounds 0 1 10 (by norm_num) (by norm_num)⟩

/-- C3 (amended): for `min ≤ max` and `tickCount ≥ 2` the generated sequence
is strictly ascending, and its values stay pairwise distinct under the
rounding the code actually applies — 15 decimal *places* (`toFixed(15)`,
`round15`). (Distinctness under rounding to 15 *significant* digits fails;
see the counterexample.) -/
theorem generateNiceTicks_strict (min max : ℚ) (tickCount : ℕ)
    (hle : min ≤ max) (htc : 2 ≤ tickCount) :
    (generateNiceTicks min max tickCount).Sorted (· < ·) ∧
      ((generateNiceTicks min max tickCount).map round15).Nodup := by
  rcases hle.lt_or_eq with h | rfl
  · have hsorted := generateNiceTicks_sorted_le min max tickCount h
    have hnodup : (generateNiceTicks min max tickCount).Nodup := by
      rw [generateNiceTicks_eq min max tickCount h]
      exact ((List.perm_insertionSort _ _).nodup_iff).mpr (List.nodup_dedup _)
    have hfix : ∀ x ∈ generateNiceTicks min max tickCount, round15 x = x := by
      intro x hx
      obtain ⟨v, -, rfl⟩ := (mem_generateNiceTicks min max tickCount h).mp hx
      exact round15_idem v
    constructor
    · exact (List.Pairwise.and hsorted hnodup).imp
        (fun hab => lt_of_le_of_ne hab.1 hab.2)
    · have hmapid : (generateNiceTicks min max tickCount).map round15 =
          generateNiceTicks min max tickCount := by
        rw [List.map_congr_left hfix]
        exact List.map_id _
      rw [hmapid]
      exact hnodup
  · have hgen : generateNiceTicks min min tickCount = [min] := by
      unfold generateNiceTicks
      rw [if_pos rfl]
    rw [hgen]
    constructor
    · simp
    · simp

/-- C3 witness: the amended statement instantiated at `min = 0`, `max = 1`,
`tickCount = 10`. -/
theorem generateNiceTicks_strict_witness :
    (0 : ℚ) ≤ 1 ∧ 2 ≤ 10 ∧
    ((generateNiceTicks 0 1 10).Sorted (· < ·) ∧
      ((generateNiceTicks 0 1 10).map round15).Nodup) :=
  ⟨by norm_num, by norm_num, generateNiceTicks_strict 0 1 10 (by norm_num) (by norm_num)⟩

/-! ### Concrete tick-generator evaluations -/

/-- At `(0, 45, 10)`: roughStep 5, ladder picks `2 * 10^0 = 2`. -/
theorem tickStep_c1 : tickStep 0 45 10 = 2 := by
  apply tickStep_eval
  · rw [show ((45 : ℚ) - 0) / (((10 : ℕ) : ℚ) - 1) = 5 by norm_num]
    rw [show (2 : ℚ) = 2 * (10 : ℚ) ^ (0 : ℤ) by norm_num]
    apply ladderStep_eval_two
    · exact int_log_eq_of (by norm_num) (by norm_num) (by norm_num) (by norm_num)
    · norm_num
    · norm_num
  · norm_num

/-- At `(0, 45, 10)`: the start snaps to 0. -/
theorem tickStart_c1 : tickStart 0 45 10 = 0 := by
  apply tickStart_eval 0 45 10 2 0 0 tickStep_c1
  · norm_num
  · norm_num

/-- At `(0, 45, 10)`: 24 loop iterations (values 0, 2, …, 46). -/
theorem rawTickCount_c1 : rawTickCount 0 45 10 = 24 := by
  rw [rawTickCount_eval 0 45 10 2 0 23 tickStep_c1 tickStart_c1 (by norm_num)]
  rfl

/-- At `(0, 45, 10)`: the loop's last value is 46. -/
theorem tickLast_c1 : tickLast 0 45 10 = 46 := by
  unfold tickLast
  rw [tickStart_c1, tickStep_c1, rawTickCount_c1]
  norm_num

/-- At `(0, 45, 10)` the generator emits 25 ticks (0, 2, …, 46 and the
forced 45): more than `tickCount + 2 = 12`. -/
theorem generateNiceTicks_length_c1 : (generateNiceTicks 0 45 10).length = 25 := by
  have h : (0 : ℚ) < 45 := by norm_num
  have htc : 2 ≤ 10 := by norm_num
  have hFeq := forcedTicks_eq 0 45 10 h htc
  rw [tickStart_c1, tickStep_c1, tickLast_c1] at hFeq
  rw [if_neg (by norm_num : ¬ (|(0 : ℚ) - 0| > 2 / 10)),
    if_pos (by rw [show |(46 : ℚ) - 45| = 1 by norm_num]; norm_num),
    List.nil_append] at hFeq
  obtain ⟨heqL, hlenL, -, -⟩ := loopTicks_facts 0 45 10 h htc
  have hfix : ∀ x ∈ forcedTicks 0 45 10, round15 x = x := by
    intro x hx
    rw [hFeq] at hx
    rcases List.mem_append.mp hx with hx | hx
    · rw [heqL] at hx
      obtain ⟨k, -, rfl⟩ := List.mem_map.mp hx
      rw [tickStart_c1, tickStep_c1]
      rw [show (0 : ℚ) + (k : ℚ) * 2 = ((2 * (k : ℤ) : ℤ) : ℚ) by push_cast; ring]
      rw [round15_intCast]
    · rw [List.mem_singleton] at hx
      subst hx
      rw [show (45 : ℚ) = ((45 : ℤ) : ℚ) by norm_num, round15_intCast]
  have hmapF : (forcedTicks 0 45 10).map round15 = forcedTicks 0 45 10 := by
    rw [List.map_congr_left hfix]
    exact List.map_id _
  have hnodupF := forcedTicks_nodup 0 45 10 h htc
  rw [generateNiceTicks_eq 0 45 10 h]
  calc (List.insertionSort (· ≤ ·) ((forcedTicks 0 45 10).map round15).dedup).length
      = ((forcedTicks 0 45 10).map round15).dedup.length :=
        (List.perm_insertionSort _ _).length_eq
    _ = (forcedTicks 0 45 10).length := by
        rw [hmapF, List.dedup_eq_self.mpr hnodupF]
    _ = (loopTicks 0 45 10).length + 1 := by
        rw [hFeq, List.length_append, List.length_singleton]
    _ = 25 := by rw [hlenL, rawTickCount_c1]

/-- At `(5612·10⁻¹⁹, 20612·10⁻¹⁹, 10)`: roughStep `1/(6·10¹⁵)`, ladder
stays at `10⁻¹⁶`. -/
theorem tickStep_c2 : tickStep (5612/10^19) (20612/10^19) 10 = 1/10^16 := by
  apply tickStep_eval
  · rw [show ((20612 : ℚ)/10^19 - 5612/10^19) / (((10 : ℕ) : ℚ) - 1) =
      1/(6*10^15) by norm_num]
    rw [show (1 : ℚ)/10^16 = (10 : ℚ) ^ (-16 : ℤ) by norm_num]
    apply ladderStep_eval_one
    · exact int_log_eq_of (by norm_num) (by norm_num) (by norm_num) (by norm_num)
    · norm_num
  · norm_num

/-- At `(5612·10⁻¹⁹, …)`: the start snaps up to `6·10⁻¹⁶`. -/
theorem tickStart_c2 : tickStart (5612/10^19) (20612/10^19) 10 = 6/10^16 := by
  apply tickStart_eval (5612/10^19) (20612/10^19) 10 (1/10^16) 5 (6/10^16) tickStep_c2
  · norm_num
  · rw [if_pos (by norm_num)]
    norm_num

/-- At `(5612·10⁻¹⁹, …)` the first output tick is `10⁻¹⁵`: the force-included
`min` itself rounds up to the next 15-decimal multiple. -/
theorem generateNiceTicks_headI_c2 :
    (generateNiceTicks (5612/10^19) (20612/10^19) 10).headI = 1/10^15 := by
  obtain ⟨-, hhead, -⟩ := generateNiceTicks_head_last (5612/10^19) (20612/10^19) 10
    (by norm_num) (by norm_num)
  rw [hhead, tickStart_c2, tickStep_c2]
  rw [if_pos (by rw [show |(6 : ℚ)/10^16 - 5612/10^19| = 388/10^19 from by
    rw [abs_of_nonneg (by norm_num)]; norm_num]; norm_num)]
  rw [round15_eval _ 1 (by norm_num)]
  norm_num

/-- C2 counterexample: the claim fails twice on the code. At
`(0, 45, 10)` the output has 25 elements, above the claimed
`tickCount + 2 = 12`. At `min = 5612·10⁻¹⁹ < max = 20612·10⁻¹⁹`
(`tickCount = 10`) the first output element is `10⁻¹⁵` — the `toFixed(15)`
rounding pushes the force-included `min` upward — which is neither `≤ min`
nor within the `step/10` tolerance of `min`. -/
theorem generateNiceTicks_claim_cex :
    ¬ ((generateNiceTicks 0 45 10).length ≤ 10 + 2) ∧
    ¬ ((generateNiceTicks (5612/10^19) (20612/10^19) 10).headI ≤ 5612/10^19 ∨
        |(generateNiceTicks (5612/10^19) (20612/10^19) 10).headI - 5612/10^19| ≤
          tickStep (5612/10^19) (20612/10^19) 10 / 10) := by
  constructor
  · rw [generateNiceTicks_length_c1]
    norm_num
  · rw [generateNiceTicks_headI_c2, tickStep_c2]
    push_neg
    constructor
    · norm_num
    · rw [show |(1 : ℚ)/10^15 - 5612/10^19| = 4388/10^19 from by
        rw [abs_of_nonneg (by norm_num)]; norm_num]
      norm_num

/-- At `(10⁶, 10⁶ + 10⁻¹², 10)`: roughStep `1/(9·10¹²)`, step `10⁻¹³`. -/
theorem tickStep_c3 : tickStep 1000000 (1000000 + 1/10^12) 10 = 1/10^13 := by
  apply tickStep_eval
  · rw [show ((1000000 : ℚ) + 1/10^12 - 1000000) / (((10 : ℕ) : ℚ) - 1) =
      1/(9*10^12) by norm_num]
    rw [show (1 : ℚ)/10^13 = (10 : ℚ) ^ (-13 : ℤ) by norm_num]
    apply ladderStep_eval_one
    · exact int_log_eq_of (by norm_num) (by norm_num) (by norm_num) (by norm_num)
    · norm_num
  · norm_num

/-- At `(10⁶, …)`: the start is exactly `min = 10⁶`. -/
theorem tickStart_c3 : tickStart 1000000 (1000000 + 1/10^12) 10 = 1000000 := by
  apply tickStart_eval 1000000 (1000000 + 1/10^12) 10 (1/10^13) (10^19) 1000000 tickStep_c3
  · norm_num
  · rw [if_neg (by norm_num)]
    norm_num

/-- At `(10⁶, …)`: 11 loop values `10⁶ + k·10⁻¹³`, `k = 0 … 10`. -/
theorem rawTickCount_c3 : rawTickCount 1000000 (1000000 + 1/10^12) 10 = 11 := by
  rw [rawTickCount_eval 1000000 (1000000 + 1/10^12) 10 (1/10^13) 1000000 10
    tickStep_c3 tickStart_c3 (by norm_num)]
  rfl

/-- At `(10⁶, …)`: the loop's last value is exactly `max`. -/
theorem tickLast_c3 : tickLast 1000000 (1000000 + 1/10^12) 10 = 1000000 + 1/10^12 := by
  unfold tickLast
  rw [tickStart_c3, tickStep_c3, rawTickCount_c3]
  norm_num

/-- At `(10⁶, …)` both `10⁶` and `10⁶ + 10⁻¹³` are output ticks. -/
theorem generateNiceTicks_mem_c3 :
    (1000000 : ℚ) ∈ generateNiceTicks 1000000 (1000000 + 1/10^12) 10 ∧
    (1000000 + 1/10^13 : ℚ) ∈ generateNiceTicks 1000000 (1000000 + 1/10^12) 10 := by
  have h : (1000000 : ℚ) < 1000000 + 1/10^12 := by norm_num
  have htc : 2 ≤ 10 := by norm_num
  have hFeq := forcedTicks_eq 1000000 (1000000 + 1/10^12) 10 h htc
  rw [tickStart_c3, tickStep_c3, tickLast_c3] at hFeq
  rw [if_neg (by norm_num : ¬ (|(1000000 : ℚ) - 1000000| > (1/10^13) / 10)),
    if_neg (by norm_num :
      ¬ (|(1000000 : ℚ) + 1/10^12 - (1000000 + 1/10^12)| > (1/10^13) / 10)),
    List.nil_append, List.append_nil] at hFeq
  obtain ⟨heqL, -, -, -⟩ := loopTicks_facts 1000000 (1000000 + 1/10^12) 10 h htc
  rw [heqL, tickStart_c3, tickStep_c3, rawTickCount_c3] at hFeq
  constructor
  · rw [mem_generateNiceTicks _ _ _ h]
    refine ⟨1000000, ?_, ?_⟩
    · rw [hFeq]
      refine List.mem_map.mpr ⟨0, ?_, by norm_num⟩
      simp
    · rw [show (1000000 : ℚ) = ((1000000 : ℤ) : ℚ) by norm_num, round15_intCast]
  · rw [mem_generateNiceTicks _ _ _ h]
    refine ⟨1000000 + 1/10^13, ?_, ?_⟩
    · rw [hFeq]
      refine List.mem_map.mpr ⟨1, ?_, by norm_num⟩
      simp
    · rw [round15_eval _ (10^21 + 100) (by norm_num)]
      norm_num

/-- 15-significant-digit rounding collapses `10⁶` and `10⁶ + 10⁻¹³` to the
same value (`10⁶`): both need a granularity of `10⁻⁸` at this magnitude. -/
theorem roundSig15_collision :
    roundSig15 1000000 = roundSig15 (1000000 + 1/10^13) ∧
      roundSig15 1000000 = 1000000 := by
  have hlog1 : Int.log 10 |(1000000 : ℚ)| = 6 := by
    rw [abs_of_pos (by norm_num)]
    exact int_log_eq_of (by norm_num) (by norm_num) (by norm_num) (by norm_num)
  have hlog2 : Int.log 10 |(1000000 : ℚ) + 1/10^13| = 6 := by
    rw [abs_of_pos (by norm_num)]
    exact int_log_eq_of (by norm_num) (by norm_num) (by norm_num) (by norm_num)
  have h1 : roundSig15 1000000 = 1000000 := by
    unfold roundSig15
    rw [if_neg (by norm_num), hlog1]
    rw [show ((6 : ℤ) - 14) = (-8 : ℤ) by norm_num]
    rw [show (1000000 : ℚ) / (10 : ℚ) ^ (-8 : ℤ) + 1/2 = 10^14 + 1/2 by norm_num]
    rw [show ⌊(10^14 + 1/2 : ℚ)⌋ = 10^14 by norm_num]
    norm_num
  refine ⟨?_, h1⟩
  rw [h1]
  unfold roundSig15
  rw [if_neg (by norm_num), hlog2]
  rw [show ((6 : ℤ) - 14) = (-8 : ℤ) by norm_num]
  rw [show ((1000000 : ℚ) + 1/10^13) / (10 : ℚ) ^ (-8 : ℤ) + 1/2 =
    10^14 + (1/10^5 + 1/2) by norm_num]
  rw [show ⌊(10^14 + (1/10^5 + 1/2) : ℚ)⌋ = 10^14 by norm_num]
  norm_num

/-- C3 counterexample: at `min = 10⁶`, `max = 10⁶ + 10⁻¹²`, `tickCount = 10`
the output contains the distinct ticks `10⁶` and `10⁶ + 10⁻¹³`, and both
round to the same value under rounding to 15 *significant* decimal digits —
the claimed distinctness after 15-significant-digit rounding fails (the code
rounds to 15 decimal places, not significant digits). -/
theorem generateNiceTicks_sig15_cex :
    (1000000 : ℚ) ∈ generateNiceTicks 1000000 (1000000 + 1/10^12) 10 ∧
    (1000000 + 1/10^13 : ℚ) ∈ generateNiceTicks 1000000 (1000000 + 1/10^12) 10 ∧
    (1000000 : ℚ) ≠ 1000000 + 1/10^13 ∧
    roundSig15 1000000 = roundSig15 (1000000 + 1/10^13) :=
  ⟨generateNiceTicks_mem_c3.1, generateNiceTicks_mem_c3.2, by norm_num,
    roundSig15_collision.1⟩

/-! ### Claim C4 (no InvalidRange validation) -/

/-- C4 (amended): `generateNiceTicks` performs no input validation and has no
failure path at all (the source contains no `throw`): for `min > max` it
returns the empty array as an ordinary value — the negative `roughStep` makes
`Math.log10` produce `NaN`, the `NaN` step empties the loop and disables both
force-include guards — and for `min ≤ max` it returns normally. It never
signals `InvalidRange`. -/
theorem generateNiceTicks_min_gt_max (min max : ℚ) (tickCount : ℕ) (h : max < min) :
    generateNiceTicks min max tickCount = [] := by
  unfold generateNiceTicks
  rw [if_neg (ne_of_gt h), if_pos h]

/-- C4 witness: `min = 1 > max = 0` returns `[]`. -/
theorem generateNiceTicks_min_gt_max_witness :
    (0 : ℚ) < 1 ∧ generateNiceTicks 1 0 10 = [] :=
  ⟨by norm_num, generateNiceTicks_min_gt_max 1 0 10 (by norm_num)⟩

/-- C4 counterexample: at `min = 1 > max = 0` the function returns the empty
list as a successful value; the claimed `InvalidRange` failure does not exist
(the source has no validation and no throw on this path). -/
theorem generateNiceTicks_no_failure_cex : generateNiceTicks 1 0 10 = [] := by
  unfold generateNiceTicks
  rw [if_neg (by norm_num), if_pos (by norm_num)]

/-! ### Claim C7 (y-axis label formatter) -/

/-- `Nat.digitChar` never yields a decimal point on an actual digit. -/
theorem digitChar_ne_dot (n : ℕ) (h : n < 10) : Nat.digitChar n ≠ '.' := by
  interval_cases n <;> decide

/-- The digit string of a natural number is non-empty. -/
theorem natToChars_ne_nil (n : ℕ) : natToChars n ≠ [] := by
  unfold natToChars
  split_ifs with h
  · simp
  · simp

/-- The digit string of a natural number contains no decimal point. -/
theorem natToChars_no_dot (n : ℕ) : '.' ∉ natToChars n := by
  induction n using Nat.strong_induction_on with
  | _ n ih =>
    unfold natToChars
    split_ifs with h
    · intro hc
      rw [List.mem_singleton] at hc
      exact digitChar_ne_dot n h hc.symm
    · intro hc
      rw [List.mem_append] at hc
      rcases hc with hc | hc
      · exact ih (n / 10) (Nat.div_lt_self (by omega) (by norm_num)) hc
      · rw [List.mem_singleton] at hc
        exact digitChar_ne_dot (n % 10) (Nat.mod_lt _ (by norm_num)) hc.symm

/-- For a positive precision, `toFixedQ` splits as integer part, one decimal
point, and fraction part, with the point occurring nowhere else and a
non-empty integer part. -/
theorem toFixedQ_decomp (p : ℕ) (hp : p ≠ 0) (v : ℚ) :
    ∃ A B : List Char, toFixedQ p v = A ++ '.' :: B ∧ A ≠ [] ∧ '.' ∉ A ∧ '.' ∉ B := by
  refine ⟨(if (⌊v * 10 ^ p + 1 / 2⌋ : ℤ) < 0 then ['-'] else []) ++
      natToChars ((⌊v * 10 ^ p + 1 / 2⌋ : ℤ).natAbs / 10 ^ p),
    padLeftZeros p (natToChars ((⌊v * 10 ^ p + 1 / 2⌋ : ℤ).natAbs % 10 ^ p)),
    ?_, ?_, ?_, ?_⟩
  · simp only [toFixedQ]
    rw [if_neg hp]
  · simp [natToChars_ne_nil]
  · intro hc
    rw [List.mem_append] at hc
    rcases hc with hc | hc
    · split_ifs at hc
      · rw [List.mem_singleton] at hc
        exact absurd hc (by decide)
      · exact absurd hc (List.not_mem_nil _)
    · exact natToChars_no_dot _ hc
  · intro hc
    rw [padLeftZeros, List.mem_append] at hc
    rcases hc with hc | hc
    · exact absurd (List.eq_of_mem_replicate hc) (by decide)
    · exact natToChars_no_dot _ hc

/-- Stripping trailing zeros from `X ++ "." ++ B` when the fraction part `B`
is all zeros leaves `X ++ "."`. -/
theorem stripTrailingZeros_append_dot_nil (X B : List Char)
    (hB : stripTrailingZeros B = []) :
    stripTrailingZeros (X ++ '.' :: B) = X ++ ['.'] := by
  have h0 : List.dropWhile (fun c => c = '0') B.reverse = [] := by
    simp only [stripTrailingZeros] at hB
    exact List.reverse_eq_nil_iff.mp hB
  simp only [stripTrailingZeros]
  rw [List.reverse_append, List.reverse_cons, List.append_assoc,
    List.singleton_append, List.dropWhile_append, h0]
  simp

/-- Stripping trailing zeros from `X ++ "." ++ B` when the fraction part `B`
keeps a nonzero digit strips only inside `B`. -/
theorem stripTrailingZeros_append_dot_ne (X B : List Char)
    (hB : stripTrailingZeros B ≠ []) :
    stripTrailingZeros (X ++ '.' :: B) = X ++ '.' :: stripTrailingZeros B := by
  have h0 : List.dropWhile (fun c => c = '0') B.reverse ≠ [] := by
    intro h
    apply hB
    simp only [stripTrailingZeros]
    rw [h, List.reverse_nil]
  simp only [stripTrailingZeros]
  rw [List.reverse_append, List.reverse_cons, List.append_assoc,
    List.singleton_append, List.dropWhile_append]
  rw [if_neg (by simpa [List.isEmpty_iff] using h0)]
  rw [List.reverse_append]
  simp

/-- After stripping trailing zeros the last character is never `'0'`. -/
theorem stripTrailingZeros_getLast (B : List Char) :
    (stripTrailingZeros B).getLast? ≠ some '0' := by
  simp only [stripTrailingZeros]
  rw [List.getLast?_reverse]
  intro hc
  have h2 := List.head?_dropWhile_not (fun c => decide (c = '0')) B.reverse
  rw [hc] at h2
  simp at h2

/-- Stripping trailing zeros only removes characters. -/
theorem stripTrailingZeros_subset (B : List Char) :
    ∀ c ∈ stripTrailingZeros B, c ∈ B := by
  intro c hc
  simp only [stripTrailingZeros, List.mem_reverse] at hc
  exact List.mem_reverse.mp (List.Sublist.subset (List.dropWhile_sublist _) hc)

/-- Shape of a stripped fixed-point label (positive precision): it is
non-empty, never ends in a bare decimal point, and never ends in a `'0'`
while still containing a decimal point. -/
theorem stripLabel_shape (p : ℕ) (hp : p ≠ 0) (v : ℚ) :
    stripLabel (toFixedQ p v) ≠ [] ∧
      (stripLabel (toFixedQ p v)).getLast? ≠ some '.' ∧
      ('.' ∈ stripLabel (toFixedQ p v) →
        (stripLabel (toFixedQ p v)).getLast? ≠ some '0') := by
  obtain ⟨A, B, hAB, hAne, hAdot, hBdot⟩ := toFixedQ_decomp p hp v
  rw [hAB]
  simp only [stripLabel]
  by_cases hB : stripTrailingZeros B = []
  · rw [stripTrailingZeros_append_dot_nil A B hB]
    have hlast : (A ++ ['.']).getLast? = some '.' := List.getLast?_concat A
    rw [if_pos hlast, List.dropLast_concat, if_neg hAne]
    refine ⟨hAne, ?_, ?_⟩
    · intro hc
      exact hAdot (mem_of_getLast?_eq hc)
    · intro hdot
      exact absurd hdot hAdot
  · rw [stripTrailingZeros_append_dot_ne A B hB]
    have hlast_eq : (A ++ '.' :: stripTrailingZeros B).getLast? =
        (stripTrailingZeros B).getLast? := by
      rw [List.getLast?_append_cons, getLast?_cons_ne '.' hB]
    have hlast_ne_dot : (A ++ '.' :: stripTrailingZeros B).getLast? ≠ some '.' := by
      rw [hlast_eq]
      intro hc
      exact hBdot (stripTrailingZeros_subset B '.' (mem_of_getLast?_eq hc))
    rw [if_neg hlast_ne_dot]
    have hne : (A ++ '.' :: stripTrailingZeros B : List Char) ≠ [] := by simp
    rw [if_neg hne]
    refine ⟨hne, hlast_ne_dot, fun _ => ?_⟩
    rw [hlast_eq]
    exact stripTrailingZeros_getLast B

/-- C7: the y-axis formatter selects scientific notation with 4 fraction
digits exactly when the plotted range is below `0.00001`; otherwise it
renders fixed-point with 12 decimals below `0.0001`, 10 below `0.001`, 8
below `0.01` and 6 otherwise, then strips trailing zeros and a bare trailing
decimal point — so the label is never empty, never ends in `'.'`, and never
ends in `'0'` while it still contains a decimal point. In particular, every
tick generated for the range `[0.00000012, 0.00000099]` is formatted in
scientific notation. -/
theorem formatYRaw_spec (range value : ℚ) :
    (range < 0.00001 → formatYRaw range value = toExponentialQ 4 value) ∧
    (0.00001 ≤ range → formatYRaw range value =
      stripLabel (toFixedQ
        (if range < 0.0001 then 12 else if range < 0.001 then 10
          else if range < 0.01 then 8 else 6) value)) ∧
    (0.00001 ≤ range → formatYRaw range value ≠ [] ∧
      (formatYRaw range value).getLast? ≠ some '.' ∧
      ('.' ∈ formatYRaw range value →
        (formatYRaw range value).getLast? ≠ some '0')) ∧
    (∀ v ∈ generateNiceTicks (12 / 10 ^ 8) (99 / 10 ^ 8) 10,
      formatYRaw (99 / 10 ^ 8 - 12 / 10 ^ 8) v = toExponentialQ 4 v) := by
  have hbranch : ∀ r v : ℚ, r < 0.00001 → formatYRaw r v = toExponentialQ 4 v := by
    intro r v h
    simp only [formatYRaw]
    rw [if_pos h]
  have hfixed : 0.00001 ≤ range → formatYRaw range value =
      stripLabel (toFixedQ
        (if range < 0.0001 then 12 else if range < 0.001 then 10
          else if range < 0.01 then 8 else 6) value) := by
    intro h
    simp only [formatYRaw]
    rw [if_neg (not_lt.mpr h)]
  refine ⟨hbranch range value, hfixed, ?_, ?_⟩
  · intro h
    rw [hfixed h]
    apply stripLabel_shape
    split_ifs <;> norm_num
  · intro v _
    exact hbranch _ v (by norm_num)

/-- Concrete fixed-point evaluation: range `1/2` selects 6 decimals and the
value `20` renders as `"20"` (`"20.000000"` with the zeros and the bare point
stripped). -/
theorem formatYRaw_eval_fixed : formatYRaw (1 / 2) 20 = ['2', '0'] := by
  have hn20 : natToChars 20 = ['2', '0'] := by
    simp [natToChars, Nat.digitChar]
  have hn0 : natToChars 0 = ['0'] := by
    simp [natToChars, Nat.digitChar]
  have hfl : (⌊(20 : ℚ) * 10 ^ 6 + 1 / 2⌋ : ℤ) = 20000000 := by norm_num
  have hna : ((20000000 : ℤ)).natAbs = 20000000 := rfl
  simp only [formatYRaw]
  rw [if_neg (by norm_num : ¬ ((1 : ℚ) / 2 < 0.00001)),
    if_neg (by norm_num : ¬ ((1 : ℚ) / 2 < 0.0001)),
    if_neg (by norm_num : ¬ ((1 : ℚ) / 2 < 0.001)),
    if_neg (by norm_num : ¬ ((1 : ℚ) / 2 < 0.01))]
  simp only [toFixedQ, hfl, hna]
  norm_num [hn20, hn0]
  decide

/-- Concrete scientific evaluation: range `87e-8` selects the scientific
branch and the value `3e-7` renders as `"3.0000e-7"`. -/
theorem formatYRaw_eval_sci :
    formatYRaw (87 / 10 ^ 8) (3 / 10 ^ 7) =
      ['3', '.', '0', '0', '0', '0', 'e', '-', '7'] := by
  have hn3 : natToChars 30000 = ['3', '0', '0', '0', '0'] := by
    simp [natToChars, Nat.digitChar]
  have hn7 : natToChars 7 = ['7'] := by
    simp [natToChars, Nat.digitChar]
  simp only [formatYRaw]
  rw [if_pos (by norm_num : (87 : ℚ) / 10 ^ 8 < 0.00001)]
  simp only [toExponentialQ]
  rw [if_neg (by norm_num : ¬ ((3 : ℚ) / 10 ^ 7 = 0))]
  have habs : |(3 : ℚ) / 10 ^ 7| = 3 / 10 ^ 7 := abs_of_pos (by norm_num)
  rw [habs]
  have hlog : Int.log 10 ((3 : ℚ) / 10 ^ 7) = -7 :=
    int_log_eq_of (by norm_num) (by norm_num) (by norm_num) (by norm_num)
  rw [hlog]
  have hm0 : (⌊(3 : ℚ) / 10 ^ 7 / (10 : ℚ) ^ (-7 : ℤ) * 10 ^ (4 : ℕ) + 1 / 2⌋ : ℤ)
      = 30000 := by norm_num
  rw [hm0]
  have ht : ((30000 : ℤ)).toNat = 30000 := rfl
  have hna7 : ((-7 : ℤ)).natAbs = 7 := rfl
  norm_num [ht, hna7, hn3, hn7]

/-- C7 witness: range `87e-8 < 0.00001` formats `3e-7` scientifically as
`"3.0000e-7"`; range `1/2 ≥ 0.00001` formats `20` as the non-empty
fixed-point label `"20"`. -/
theorem formatYRaw_spec_witness :
    ((87 : ℚ) / 10 ^ 8 < 0.00001 ∧
      formatYRaw (87 / 10 ^ 8) (3 / 10 ^ 7) = toExponentialQ 4 (3 / 10 ^ 7) ∧
      formatYRaw (87 / 10 ^ 8) (3 / 10 ^ 7) =
        ['3', '.', '0', '0', '0', '0', 'e', '-', '7']) ∧
    ((0.00001 : ℚ) ≤ 1 / 2 ∧
      formatYRaw (1 / 2) 20 ≠ [] ∧ formatYRaw (1 / 2) 20 = ['2', '0']) :=
  ⟨⟨by norm_num, (formatYRaw_spec (87 / 10 ^ 8) (3 / 10 ^ 7)).1 (by norm_num),
      formatYRaw_eval_sci⟩,
    by norm_num, ((formatYRaw_spec (1 / 2) 20).2.2.1 (by norm_num)).1,
      formatYRaw_eval_fixed⟩

/-! ### Claim C8 (x-axis label layout) -/

/-- Under the no-overlap proviso every label index is at least the running
end column. -/
theorem noOverlap_le (labels : List (ℕ × List Char)) :
    ∀ pe, noOverlap pe labels = true →
      ∀ (k idx : ℕ) (t : List Char), labels[k]? = some (idx, t) → pe ≤ idx := by
  induction labels with
  | nil =>
    intro pe _ k idx t hk
    simp at hk
  | cons hd rest ih =>
    intro pe h k idx t hk
    obtain ⟨i0, t0⟩ := hd
    simp only [noOverlap, Bool.and_eq_true, decide_eq_true_eq] at h
    rcases k with _ | k
    · rw [List.getElem?_cons_zero, Option.some.injEq, Prod.mk.injEq] at hk
      omega
    · rw [List.getElem?_cons_succ] at hk
      have := ih (i0 + t0.length) h.2 k idx t hk
      omega

/-- Characterisation of the x-axis accumulator: under the no-overlap proviso
it succeeds, and each label `(idx, t)` occupies offset `idx - pe` of the
produced suffix. -/
theorem buildXAxisAux_spec (labels : List (ℕ × List Char)) :
    ∀ pe, noOverlap pe labels = true →
      ∃ s : List Char, buildXAxisAux pe labels = some s ∧
        ∀ (k idx : ℕ) (t : List Char), labels[k]? = some (idx, t) →
          (s.drop (idx - pe)).take t.length = t := by
  induction labels with
  | nil =>
    intro pe _
    exact ⟨[], rfl, by intro k idx t hk; simp at hk⟩
  | cons hd rest ih =>
    intro pe h
    obtain ⟨i0, t0⟩ := hd
    simp only [noOverlap, Bool.and_eq_true, decide_eq_true_eq] at h
    obtain ⟨hpe, hrest⟩ := h
    obtain ⟨s', hs', hpos⟩ := ih (i0 + t0.length) hrest
    refine ⟨List.replicate (i0 - pe) ' ' ++ t0 ++ s', ?_, ?_⟩
    · simp only [buildXAxisAux]
      rw [if_pos hpe, hs']
      rfl
    · intro k idx t hk
      rcases k with _ | k
      · rw [List.getElem?_cons_zero, Option.some.injEq, Prod.mk.injEq] at hk
        obtain ⟨h1, h2⟩ := hk
        rw [← h1, ← h2, List.append_assoc,
          List.drop_left' (show (List.replicate (i0 - pe) ' ').length = i0 - pe by simp)]
        exact List.take_left t0 s'
      · rw [List.getElem?_cons_succ] at hk
        have hge : i0 + t0.length ≤ idx := noOverlap_le rest (i0 + t0.length) hrest k idx t hk
        have hp := hpos k idx t hk
        have harith : idx - pe =
            (List.replicate (i0 - pe) ' ' ++ t0).length + (idx - (i0 + t0.length)) := by
          rw [List.length_append, List.length_replicate]
          omega
        rw [harith, List.drop_append]
        exact hp

/-- C8: for a ratio series of length `n ≥ 2` the x-axis uses exactly
`min(10, max(4, ceil(n/30)))` labels (`ceil(n/30) = (n+29)/30` in natural
division); the label at position `i` before the last sits at sample index
`i * floor((n-1)/(labelCount-1))` and the last index `n - 1` is always
appended explicitly; and whenever each label's start index is at least the
preceding label's end column, the rendered axis line exists and places each
label's first character at the column equal to the numeric gutter width plus
that label's sample index. -/
theorem xAxis_spec (n : ℕ) (hn : 2 ≤ n) :
    (labelIndices n).length = Min.min 10 (Max.max 4 ((n + 29) / 30)) ∧
    (labelIndices n).getLast? = some (n - 1) ∧
    (∀ i < labelCount n - 1, (labelIndices n)[i]? = some (i * labelStride n)) ∧
    (∀ (yTickWidth : ℕ) (labels : List (ℕ × List Char)),
      noOverlap 0 labels = true →
      ∃ s, buildXAxis yTickWidth labels = some s ∧
        ∀ (k idx : ℕ) (t : List Char), labels[k]? = some (idx, t) →
          (s.drop (yTickWidth + idx)).take t.length = t) := by
  have h1 : 1 ≤ labelCount n :=
    le_min (by norm_num) (le_trans (by norm_num) (le_max_left 4 ((n + 29) / 30)))
  refine ⟨?_, ?_, ?_, ?_⟩
  · show (labelIndices n).length = labelCount n
    simp only [labelIndices]
    rw [List.length_append, List.length_map, List.length_range]
    simp only [List.length_cons, List.length_nil]
    omega
  · simp only [labelIndices]
    exact List.getLast?_concat _
  · intro i hi
    simp only [labelIndices]
    rw [List.getElem?_append_left, List.getElem?_map, List.getElem?_range hi]
    · rfl
    · rw [List.length_map, List.length_range]
      exact hi
  · intro w labels hno
    obtain ⟨s, hs, hpos⟩ := buildXAxisAux_spec labels 0 hno
    refine ⟨List.replicate w ' ' ++ s, ?_, ?_⟩
    · simp only [buildXAxis]
      rw [hs]
      rfl
    · intro k idx t hk
      have hp := hpos k idx t hk
      rw [Nat.sub_zero] at hp
      rw [show w + idx = (List.replicate w ' ').length + idx from (by simp),
        List.drop_append]
      exact hp

/-- C8 witness: for `n = 40` the axis uses `min(10, max(4, ceil(40/30))) = 4`
labels at indices `[0, 13, 26, 39]` (stride 13), and four one-character
labels at those indices render with the second label's character at column
`12 + 13` past the 12-wide gutter. -/
theorem xAxis_spec_witness :
    (2 ≤ 40 ∧ labelIndices 40 = [0, 13, 26, 39] ∧
      (labelIndices 40).length = Min.min 10 (Max.max 4 ((40 + 29) / 30)) ∧
      (labelIndices 40).getLast? = some 39 ∧
      (labelIndices 40)[2]? = some (2 * labelStride 40)) ∧
    (noOverlap 0 [(0, ['a']), (13, ['b']), (26, ['c']), (39, ['d'])] = true ∧
      ∃ s, buildXAxis 12 [(0, ['a']), (13, ['b']), (26, ['c']), (39, ['d'])] = some s ∧
        (s.drop (12 + 13)).take 1 = ['b']) := by
  refine ⟨⟨by norm_num, by decide, (xAxis_spec 40 (by norm_num)).1, ?_, ?_⟩,
    by decide, ?_⟩
  · have h := (xAxis_spec 40 (by norm_num)).2.1
    simpa using h
  · exact (xAxis_spec 40 (by norm_num)).2.2.1 2 (by decide)
  · obtain ⟨s, hs, hpos⟩ := (xAxis_spec 40 (by norm_num)).2.2.2 12
      [(0, ['a']), (13, ['b']), (26, ['c']), (39, ['d'])] (by decide)
    exact ⟨s, hs, hpos 1 13 ['b'] (by decide)⟩

end PulseAnalytics
